import Mathlib

/-!
Verification of the routing program in `src/main.py` (MassiGy/Network-routing-overview).

The program is embedded shallowly:

* a Python router dict becomes the structure `Router`; its `routing_table`
  dict becomes an insertion-ordered association list (Python dicts preserve
  insertion order);
* `setup_routing_tables` mutates the router list in place; here it is a pure
  function from the router list to the updated router list.  The
  empty-topology early return (the source prints a diagnostic and returns
  without touching any state) is embedded as `Except.error .EmptyTopologyError`;
* the `while` loop of `find_best_route` is unbounded in the source; it is
  embedded with an explicit fuel parameter, `.error .outOfFuel` marking a
  run that has not terminated within the given fuel;
* Python `==` on two router dicts from the same network reduces to equality
  of their `id` fields: ids are unique (dense `0..N-1` invariant of the
  data model) and the algorithm never mutates `id`, so two distinct routers
  always differ at `id`.  The embedding compares ids where the source
  compares whole dicts;
* Python list indexing `routers[k]` with a possibly negative `k` (the
  sentinel `-1` reaches this expression in `find_best_route`) is embedded by
  `pyIndex`, which wraps negative indices exactly as Python does and returns
  `none` where Python would raise `IndexError`;
* costs and ids are Python ints; costs are embedded as `Int` (the sentinel
  next hop `-1` also forces table entries to carry `Int` hops), router ids
  as `Nat` (the data model requires ids dense starting at 0).
-/

set_option maxRecDepth 10000

/-- Total cost used as the Bellman-Ford seed: `infinity = pow(10,10)` in the
source. -/
def INFINITY : Int := 10 ^ 10

/-- A router dict: `id`, `nieghbors` (sic, as in the source) as a list of
`(neighbor_id, cost)` pairs, and `routing_table` mapping a destination id to
the ordered list of `(next_hop_id, total_cost)` candidates. -/
structure Router where
  id : Nat
  nieghbors : List (Nat × Int)
  routing_table : List (Nat × List (Int × Int))
deriving DecidableEq, Repr

instance : Inhabited Router := ⟨⟨0, [], []⟩⟩

/-- Python dict read: first binding of the key, if any. -/
def dictGet (m : List (Nat × α)) (k : Nat) : Option α :=
  match m with
  | [] => none
  | (k', v) :: rest => if k' = k then some v else dictGet rest k

/-- Python dict write `m[k] = v`: overwrite in place if present, else append
(a new key goes to the end of the insertion order, as in Python). -/
def dictSet (m : List (Nat × α)) (k : Nat) (v : α) : List (Nat × α) :=
  match m with
  | [] => [(k, v)]
  | (k', v') :: rest => if k' = k then (k, v) :: rest else (k', v') :: dictSet rest k v

/-- Python `m[k].append x` on a dict of lists.  Every append in the source
hits a key that is present (it was seeded in the same destination pass); on
an absent key the embedding creates the binding, a case no verified run
reaches. -/
def dictAppend (m : List (Nat × List α)) (k : Nat) (x : α) : List (Nat × List α) :=
  dictSet m k (((dictGet m k).getD []) ++ [x])

/-- Update the element at position `i` of a list; out of range is the
identity (Python would raise, no verified run goes out of range). -/
def setIdx (l : List α) (i : Nat) (f : α → α) : List α :=
  match l, i with
  | [], _ => []
  | x :: rest, 0 => f x :: rest
  | x :: rest, n + 1 => x :: setIdx rest n f

/-- Read a router's table list for destination id `k` (`r["routing_table"][k]`). -/
def tblGet (r : Router) (k : Nat) : List (Int × Int) :=
  (dictGet r.routing_table k).getD []

/-- `routers[i]["routing_table"][k] = v`. -/
def tblSet (rs : List Router) (i : Nat) (k : Nat) (v : List (Int × Int)) : List Router :=
  setIdx rs i (fun r => { r with routing_table := dictSet r.routing_table k v })

/-- `routers[i]["routing_table"][k].append x`. -/
def tblAppend (rs : List Router) (i : Nat) (k : Nat) (x : Int × Int) : List Router :=
  setIdx rs i (fun r => { r with routing_table := dictAppend r.routing_table k x })

/-- Python `l[-1]`: last element.  The default is never reached in a
verified run: every table list read by the algorithm has been seeded
non-empty in the same destination pass. -/
def lastEntry (l : List (Int × Int)) : Int × Int :=
  l.getLastD (-1, INFINITY)

/-- Cost of the incumbent best entry of a table list (the source reads
`[-1][1]`). -/
def lastCost (l : List (Int × Int)) : Int :=
  (lastEntry l).2

/-- Lines 302-325: ask one neighbor `nb = (nid, edge_cost)` of router `i`
whether it offers a better route to the destination id `dId`, and append the
improved candidate if so. -/
def relaxEdgeState (s : List Router) (dId : Nat) (i : Nat) (nb : Nat × Int) : List Router :=
  let n := s.getD nb.1 default
  let nlast := lastEntry (tblGet n dId)
  if nlast.2 = INFINITY then s
  else
    let slast := lastEntry (tblGet (s.getD i default) dId)
    if nb.2 + nlast.2 < slast.2 then
      tblAppend s i dId ((nb.1 : Int), nb.2 + nlast.2)
    else s

/-- Lines 291-325: one router's turn in a relaxation pass.  The source
skips `r == destination`; dict equality reduces to id equality (ids are
unique and immutable). -/
def relaxRouterState (s : List Router) (dId : Nat) (i : Nat) : List Router :=
  if (s.getD i default).id = dId then s
  else (s.getD i default).nieghbors.foldl (fun s' nb => relaxEdgeState s' dId i nb) s

/-- Lines 291-325: one full inner pass over every router. -/
def sweepState (s : List Router) (dId : Nat) : List Router :=
  (List.range s.length).foldl (fun s' i => relaxRouterState s' dId i) s

/-- Lines 252-261: the destination's self entry followed by the sentinel
seed of every other router (the source skips `_r != destination`; dict
equality reduces to id equality). -/
def seedStage (rs : List Router) (dIdx : Nat) : List Router :=
  let dId := (rs.getD dIdx default).id
  let rs1 := tblSet rs dIdx dId [((dId : Int), 0)]
  (List.range rs1.length).foldl
    (fun s i => if (s.getD i default).id = dId then s else tblSet s i dId [(-1, INFINITY)]) rs1

/-- Lines 263-281: direct-neighbor seeding.  For each `(nid, _)` listed by
the destination, the cost of the edge back to the destination is looked up
in `nid`'s own neighbor list (first match, `INFINITY` if absent) and
appended. -/
def directStage (rs2 : List Router) (dIdx : Nat) (dId : Nat) : List Router :=
  (rs2.getD dIdx default).nieghbors.foldl
    (fun s nr =>
      let c := (((s.getD nr.1 default).nieghbors.find? (fun n => n.1 == dId)).map (·.2)).getD INFINITY
      tblAppend s nr.1 dId ((dId : Int), c)) rs2

/-- Lines 248-325: the whole per-destination computation, `destination`
being the router at position `dIdx`.  Order follows the source: self entry,
seed of every other router, direct-neighbor seeding, then `len(routers)`
relaxation passes. -/
def destPhase (rs : List Router) (dIdx : Nat) : List Router :=
  let dId := (rs.getD dIdx default).id
  let rs3 := directStage (seedStage rs dIdx) dIdx dId
  (List.range rs3.length).foldl (fun s _ => sweepState s dId) rs3

/-- The destination loop of `setup_routing_tables` (line 248), after the
empty-topology guard. -/
def setupLoop (rs : List Router) : List Router :=
  (List.range rs.length).foldl destPhase rs

inductive SetupError where
  | EmptyTopologyError
deriving DecidableEq, Repr

/-- Lines 204-327.  The source prints a diagnostic and returns having
touched no state when the router list is empty; the diagnostic is embedded
as the error value. -/
def setup_routing_tables (rs : List Router) : Except SetupError (List Router) :=
  if rs.isEmpty then .error .EmptyTopologyError
  else .ok (setupLoop rs)

inductive RouteError where
  | outOfFuel
  | indexError
  | keyError
  | emptyEntry
deriving DecidableEq, Repr

/-- Python list indexing with an `Int` index: negative indices wrap from the
end, anything else out of range raises (`none`). -/
def pyIndex (rs : List Router) (k : Int) : Option Router :=
  if 0 ≤ k then
    if k < rs.length then some (rs.getD k.toNat default) else none
  else
    if 0 ≤ k + rs.length then some (rs.getD (k + rs.length).toNat default) else none

/-- The `while` loop of `find_best_route` (lines 349-353), with fuel.  The
source loop is unbounded; exhausted fuel marks a run that has not
terminated. -/
def routeWalk (rs : List Router) (destId : Nat) : Nat → Int → List Int → Except RouteError (List Int)
  | 0, _, _ => .error .outOfFuel
  | fuel + 1, curr, path =>
    if curr = (destId : Int) then .ok (path ++ [(destId : Int)])
    else
      match pyIndex rs curr with
      | none => .error .indexError
      | some r =>
        match dictGet r.routing_table destId with
        | none => .error .keyError
        | some l =>
          match l.head? with
          | none => .error .emptyEntry
          | some e => routeWalk rs destId fuel e.1 (path ++ [curr])

/-- Lines 331-355.  The source checks `src not in routers or dest not in
routers` but only prints a warning — there is no early return — so the check
does not affect the result and the embedding carries no membership branch. -/
def find_best_route (fuel : Nat) (rs : List Router) (src dest : Router) :
    Except RouteError (List Int) :=
  match dictGet src.routing_table dest.id with
  | none => .error .keyError
  | some l =>
    match l.head? with
    | none => .error .emptyEntry
    | some e => routeWalk rs dest.id fuel e.1 [(src.id : Int)]

/-- The in-place `hops.sort(key=lambda x: x[1])` of the report loop
(line 384) applied, as the report loop does, to every list of every
router's table.  Python's sort is stable, and a stable sort by cost is
extensionally unique, so `List.insertionSort` computes the same list. -/
def reportSort (rs : List Router) : List Router :=
  rs.map (fun r =>
    { r with routing_table :=
        r.routing_table.map (fun kv => (kv.1, kv.2.insertionSort (fun a b => a.2 ≤ b.2))) })

/-- The seed topology (lines 62-105): six routers, ids 0-5. -/
def routers : List Router :=
  [ { id := 0, nieghbors := [(1, 1), (2, 2)], routing_table := [] },
    { id := 1, nieghbors := [(0, 1), (2, 2), (3, 3), (4, 1)], routing_table := [] },
    { id := 2, nieghbors := [(0, 2), (1, 2), (4, 3)], routing_table := [] },
    { id := 3, nieghbors := [(1, 3), (4, 1), (5, 1)], routing_table := [] },
    { id := 4, nieghbors := [(1, 1), (2, 3), (3, 1), (5, 3)], routing_table := [] },
    { id := 5, nieghbors := [(3, 1), (4, 3)], routing_table := [] } ]

/-! ### The per-destination column model

Processing one destination reads and writes only the table key of that
destination, across all routers.  The proofs therefore work on the
projection of the state to that single key (one candidate list per router,
the "column"), together with the immutable structure (ids and neighbor
lists).  `destPhase` is proved equal to the column computation below. -/

/-- The immutable part of the network: ids and neighbor lists. -/
def structOf (rs : List Router) : List (Nat × List (Nat × Int)) :=
  rs.map (fun r => (r.id, r.nieghbors))

/-- Indexed read of the structure; the default matches the default `Router`. -/
def sGet (st : List (Nat × List (Nat × Int))) (i : Nat) : Nat × List (Nat × Int) :=
  st.getD i (0, [])

/-- Indexed read of a column (out of range gives `[]`, matching the table
read of the default `Router`). -/
def colGet (c : List (List (Int × Int))) (i : Nat) : List (Int × Int) :=
  c.getD i []

/-- Column mirror of `relaxEdgeState`. -/
def colRelaxEdge (c : List (List (Int × Int))) (i : Nat) (nb : Nat × Int) :
    List (List (Int × Int)) :=
  let nlast := lastEntry (colGet c nb.1)
  if nlast.2 = INFINITY then c
  else
    let slast := lastEntry (colGet c i)
    if nb.2 + nlast.2 < slast.2 then
      setIdx c i (fun l => l ++ [((nb.1 : Int), nb.2 + nlast.2)])
    else c

/-- Column mirror of `relaxRouterState`. -/
def colRelaxRouter (st : List (Nat × List (Nat × Int))) (dId : Nat)
    (c : List (List (Int × Int))) (i : Nat) : List (List (Int × Int)) :=
  if (sGet st i).1 = dId then c
  else (sGet st i).2.foldl (fun c' nb => colRelaxEdge c' i nb) c

/-- Column mirror of `sweepState`. -/
def colSweep (st : List (Nat × List (Nat × Int))) (dId : Nat)
    (c : List (List (Int × Int))) : List (List (Int × Int)) :=
  (List.range c.length).foldl (colRelaxRouter st dId) c

/-- The direct-neighbor seed cost for router `j` toward destination id
`dId`: first matching entry of `j`'s own neighbor list, else `INFINITY`. -/
def dseedCost (st : List (Nat × List (Nat × Int))) (dId : Nat) (j : Nat) : Int :=
  ((((sGet st j).2.find? (fun n => n.1 == dId)).map (·.2)).getD INFINITY)

/-- Column mirror of one direct-neighbor seeding step. -/
def colDirectStep (st : List (Nat × List (Nat × Int))) (dId : Nat)
    (c : List (List (Int × Int))) (nr : Nat × Int) : List (List (Int × Int)) :=
  setIdx c nr.1 (fun l => l ++ [((dId : Int), dseedCost st dId nr.1)])

/-- Column state after the seeding of lines 252 and 259-261 (destination
gets its self entry, every other router the sentinel seed). -/
def seedCols (st : List (Nat × List (Nat × Int))) (dIdx : Nat) :
    List (List (Int × Int)) :=
  (List.range st.length).map
    (fun i => if i = dIdx then [(((sGet st dIdx).1 : Int), 0)] else [(-1, INFINITY)])

/-- Column mirror of the whole of `destPhase`. -/
def colPhase (st : List (Nat × List (Nat × Int))) (dIdx : Nat) :
    List (List (Int × Int)) :=
  let dId := (sGet st dIdx).1
  let c1 := (sGet st dIdx).2.foldl (colDirectStep st dId) (seedCols st dIdx)
  (List.range c1.length).foldl (fun c _ => colSweep st dId c) c1

/-- Overwrite, for every router, the table entry of the one destination key
`dId` with the corresponding column value. -/
def applyColumn (rs : List Router) (dId : Nat) (c : List (List (Int × Int))) :
    List Router :=
  match rs, c with
  | [], _ => []
  | r :: rest, [] => r :: rest
  | r :: rest, v :: cr =>
      { r with routing_table := dictSet r.routing_table dId v } :: applyColumn rest dId cr

/-! ### Listing paths

Costs propagate from the destination back to a router `r` through `r`'s own
neighbor list, so reachability is along chains of neighbor listings. -/

/-- A chain of neighbor listings from `i` to the destination position
`dIdx`: each step `(v, e)` must be an entry of the current router's own
neighbor list. -/
def RPath (st : List (Nat × List (Nat × Int))) (dIdx : Nat) : Nat → List (Nat × Int) → Prop
  | i, [] => i = dIdx
  | i, nb :: rest => (nb ∈ (sGet st i).2) ∧ RPath st dIdx nb.1 rest

def pathSum (p : List (Nat × Int)) : Int := (p.map (fun x => x.2)).sum

def pathVerts (i : Nat) (p : List (Nat × Int)) : List Nat := i :: p.map (fun x => x.1)

/-- A simple path: a listing chain visiting no router twice. -/
def SimplePath (st : List (Nat × List (Nat × Int))) (dIdx i : Nat)
    (p : List (Nat × Int)) : Prop :=
  RPath st dIdx i p ∧ (pathVerts i p).Nodup

instance instRPathDecidable (st : List (Nat × List (Nat × Int))) (dIdx : Nat) :
    ∀ (i : Nat) (p : List (Nat × Int)), Decidable (RPath st dIdx i p)
  | i, [] => inferInstanceAs (Decidable (i = dIdx))
  | i, nb :: rest =>
    haveI := instRPathDecidable st dIdx nb.1 rest
    inferInstanceAs (Decidable ((nb ∈ (sGet st i).2) ∧ RPath st dIdx nb.1 rest))

instance (st : List (Nat × List (Nat × Int))) (dIdx i : Nat) (p : List (Nat × Int)) :
    Decidable (SimplePath st dIdx i p) :=
  inferInstanceAs (Decidable (RPath st dIdx i p ∧ (pathVerts i p).Nodup))

instance : IsTotal (Int × Int) (fun a b => a.2 ≤ b.2) :=
  ⟨fun a b => le_total a.2 b.2⟩

instance : IsTrans (Int × Int) (fun a b => a.2 ≤ b.2) :=
  ⟨fun _ _ _ h1 h2 => le_trans h1 h2⟩

/-- Well-formedness of the network structure: dense ids, in-range neighbor
references, positive costs below `INFINITY`, and no self loops — the data
model invariants of the source's seed data. -/
structure WFs (st : List (Nat × List (Nat × Int))) : Prop where
  dense : ∀ i, i < st.length → (sGet st i).1 = i
  nbrLt : ∀ i, i < st.length → ∀ nb ∈ (sGet st i).2, nb.1 < st.length
  costPos : ∀ i, i < st.length → ∀ nb ∈ (sGet st i).2, 0 < nb.2
  costLtInf : ∀ i, i < st.length → ∀ nb ∈ (sGet st i).2, nb.2 < INFINITY
  noSelf : ∀ i, i < st.length → ∀ nb ∈ (sGet st i).2, nb.1 ≠ i

/-! ### The column invariant -/

/-- Invariant maintained by every step of one destination's column
computation: the column list has one entry per router, the destination's own
column is exactly its self entry, every column is non-empty with adjacent
costs never increasing, costs never exceed `INFINITY`, and every
finite-cost entry is witnessed by a simple listing path of no larger sum. -/
structure ColInv (st : List (Nat × List (Nat × Int))) (dIdx : Nat)
    (c : List (List (Int × Int))) : Prop where
  len : c.length = st.length
  selfCol : colGet c dIdx = [((dIdx : Int), 0)]
  ne : ∀ i, i < st.length → colGet c i ≠ []
  desc : ∀ i, i < st.length → (colGet c i).Chain' (fun a b => b.2 ≤ a.2)
  ub : ∀ i, i < st.length → ∀ x ∈ colGet c i, x.2 ≤ INFINITY
  lb : ∀ i, i < st.length → ∀ x ∈ colGet c i, x.2 < INFINITY →
        ∃ p, RPath st dIdx i p ∧ (pathVerts i p).Nodup ∧ pathSum p ≤ x.2

def ColLe (c c' : List (List (Int × Int))) : Prop :=
  ∀ i, lastCost (colGet c' i) ≤ lastCost (colGet c i)

/-- During the direct-neighbor seeding, a column's incumbent cost is either
still the seed `INFINITY` or already the direct seed cost of that router. -/
def DInv (st : List (Nat × List (Nat × Int))) (dIdx : Nat)
    (c : List (List (Int × Int))) : Prop :=
  ColInv st dIdx c ∧
    ∀ j, j ≠ dIdx →
      lastCost (colGet c j) = INFINITY ∨ lastCost (colGet c j) = dseedCost st dIdx j

/-- After `k` sweeps, the incumbent cost of every router is at most the sum
of any simple listing path of length at most `k` whose sum is below
`INFINITY`. -/
def UBk (st : List (Nat × List (Nat × Int))) (dIdx k : Nat)
    (c : List (List (Int × Int))) : Prop :=
  ∀ i, i < st.length → ∀ p, RPath st dIdx i p → (pathVerts i p).Nodup →
    p.length ≤ k → pathSum p < INFINITY → lastCost (colGet c i) ≤ pathSum p


/-! ### Accumulated edge cost of a returned route, and small topologies -/

/-- Cost of the directed edge `a -> b` read from `a`'s own neighbor list
(first match), if any; `b` is an `Int` because returned hops can be the
sentinel `-1`. -/
def edgeCost (st : List (Nat × List (Nat × Int))) (a : Nat) (b : Int) : Option Int :=
  ((sGet st a).2.find? (fun n => (n.1 : Int) == b)).map (·.2)

/-- Total accumulated edge cost along a returned route, `none` when some
consecutive pair is not an edge of the graph. -/
def routeCost (st : List (Nat × List (Nat × Int))) : List Int → Option Int
  | [] => some 0
  | [_] => some 0
  | a :: b :: rest =>
    if 0 ≤ a then
      match edgeCost st a.toNat b with
      | none => none
      | some e =>
        match routeCost st (b :: rest) with
        | none => none
        | some s => some (e + s)
    else none

/-- Two isolated routers: a disconnected topology. -/
def discRouters : List Router :=
  [ { id := 0, nieghbors := [], routing_table := [] },
    { id := 1, nieghbors := [], routing_table := [] } ]

/-- A single isolated router: the smallest connected topology. -/
def oneRouter : List Router :=
  [ { id := 0, nieghbors := [], routing_table := [] } ]

/-- Hand-written inconsistent tables: routers 0 and 1 each name the other as
best next hop toward destination 2. -/
def cycRouters : List Router :=
  [ { id := 0, nieghbors := [], routing_table := [(2, [(1, 5)])] },
    { id := 1, nieghbors := [], routing_table := [(2, [(0, 5)])] },
    { id := 2, nieghbors := [], routing_table := [(2, [(2, 0)])] } ]

/-- A router record with id 5 that is not an element of the seed list (its
neighbor list and table differ from the seed's router 5). -/
def ghostRouter : Router := { id := 5, nieghbors := [], routing_table := [] }

/-! ### Primitive lemmas -/

theorem setIdx_length (l : List α) (i : Nat) (f : α → α) :
    (setIdx l i f).length = l.length := by
  induction l generalizing i with
  | nil => rfl
  | cons x rest ih =>
    cases i with
    | zero => rfl
    | succ n => simpa [setIdx] using ih n

theorem setIdx_oob (l : List α) (i : Nat) (f : α → α) (h : l.length ≤ i) :
    setIdx l i f = l := by
  induction l generalizing i with
  | nil => rfl
  | cons x rest ih =>
    cases i with
    | zero => simp at h
    | succ n =>
      simp only [List.length_cons] at h
      simpa [setIdx] using ih n (by omega)

theorem getD_setIdx_self (l : List α) (i : Nat) (f : α → α) (d : α) (h : i < l.length) :
    (setIdx l i f).getD i d = f (l.getD i d) := by
  induction l generalizing i with
  | nil => simp at h
  | cons x rest ih =>
    cases i with
    | zero => rfl
    | succ n =>
      simp only [List.length_cons] at h
      simpa [setIdx] using ih n (by omega)

theorem getD_setIdx_ne (l : List α) (i j : Nat) (f : α → α) (d : α) (h : j ≠ i) :
    (setIdx l i f).getD j d = l.getD j d := by
  induction l generalizing i j with
  | nil => rfl
  | cons x rest ih =>
    cases i with
    | zero =>
      cases j with
      | zero => exact absurd rfl h
      | succ m => rfl
    | succ n =>
      cases j with
      | zero => rfl
      | succ m => simpa [setIdx] using ih n m (by omega)

theorem getD_oob (l : List α) (i : Nat) (d : α) (h : l.length ≤ i) : l.getD i d = d := by
  induction l generalizing i with
  | nil => rfl
  | cons x rest ih =>
    cases i with
    | zero => simp at h
    | succ n =>
      simp only [List.length_cons] at h
      simpa using ih n (by omega)

theorem dictGet_dictSet_self (m : List (Nat × α)) (k : Nat) (v : α) :
    dictGet (dictSet m k v) k = some v := by
  induction m with
  | nil => simp [dictGet, dictSet]
  | cons kv rest ih =>
    by_cases h : kv.1 = k
    · simp [dictGet, dictSet, h]
    · simp [dictGet, dictSet, h, ih]

theorem dictGet_dictSet_ne (m : List (Nat × α)) (k k' : Nat) (v : α) (h : k' ≠ k) :
    dictGet (dictSet m k v) k' = dictGet m k' := by
  induction m with
  | nil => simp [dictGet, dictSet, Ne.symm h]
  | cons kv rest ih =>
    obtain ⟨k1, v1⟩ := kv
    by_cases hk : k1 = k
    · subst hk
      simp [dictGet, dictSet, Ne.symm h]
    · by_cases hk' : k1 = k'
      · simp [dictGet, dictSet, hk, hk', h]
      · simp [dictGet, dictSet, hk, hk', ih]

theorem dictSet_dictSet_self (m : List (Nat × α)) (k : Nat) (v w : α) :
    dictSet (dictSet m k v) k w = dictSet m k w := by
  induction m with
  | nil => simp [dictSet]
  | cons kv rest ih =>
    by_cases h : kv.1 = k
    · simp [dictSet, h]
    · simp [dictSet, h, ih]

theorem dictAppend_dictSet (m : List (Nat × List α)) (k : Nat) (v : List α) (x : α) :
    dictAppend (dictSet m k v) k x = dictSet m k (v ++ [x]) := by
  simp [dictAppend, dictGet_dictSet_self, dictSet_dictSet_self]

/-! ### Generic fold helpers -/

theorem foldl_inv {P : α → Prop} (f : α → γ → α) (l : List γ) (a : α)
    (step : ∀ b c, c ∈ l → P b → P (f b c)) (h : P a) : P (l.foldl f a) := by
  induction l generalizing a with
  | nil => exact h
  | cons x rest ih =>
    exact ih (f a x) (fun b c hc hb => step b c (List.mem_cons_of_mem _ hc) hb)
      (step a x (List.mem_cons_self _ _) h)

theorem foldl_hom_inv {P : α → Prop} (f : α → β) (g1 : α → γ → α) (g2 : β → γ → β)
    (l : List γ) (a : α)
    (hP : ∀ b c, c ∈ l → P b → P (g1 b c))
    (h : ∀ b c, c ∈ l → P b → f (g1 b c) = g2 (f b) c) (ha : P a) :
    f (l.foldl g1 a) = l.foldl g2 (f a) := by
  induction l generalizing a with
  | nil => rfl
  | cons x rest ih =>
    rw [List.foldl_cons, List.foldl_cons, ← h a x (List.mem_cons_self _ _) ha]
    exact ih (g1 a x) (fun b c hc hb => hP b c (List.mem_cons_of_mem _ hc) hb)
      (fun b c hc hb => h b c (List.mem_cons_of_mem _ hc) hb)
      (hP a x (List.mem_cons_self _ _) ha)

theorem foldl_rel (R : α → α → Prop) (f : α → γ → α) (l : List γ) (a : α)
    (hrefl : ∀ b, R b b) (htrans : ∀ x y z, R x y → R y z → R x z)
    (hstep : ∀ b c, c ∈ l → R b (f b c)) : R a (l.foldl f a) := by
  induction l generalizing a with
  | nil => exact hrefl a
  | cons x rest ih =>
    exact htrans _ _ _ (hstep a x (List.mem_cons_self _ _))
      (ih (f a x) (fun b c hc => hstep b c (List.mem_cons_of_mem _ hc)))

/-! ### Structure preservation -/

theorem structOf_length (rs : List Router) : (structOf rs).length = rs.length :=
  List.length_map _ _

theorem structOf_getD (rs : List Router) (i : Nat) :
    sGet (structOf rs) i = ((rs.getD i default).id, (rs.getD i default).nieghbors) := by
  induction rs generalizing i with
  | nil => cases i <;> rfl
  | cons r rest ih =>
    cases i with
    | zero => rfl
    | succ n => simpa [structOf, sGet] using ih n

theorem structOf_setIdx (rs : List Router) (i : Nat)
    (g : Router → List (Nat × List (Int × Int))) :
    structOf (setIdx rs i (fun r => { r with routing_table := g r })) = structOf rs := by
  induction rs generalizing i with
  | nil => rfl
  | cons r rest ih =>
    cases i with
    | zero => simp [setIdx, structOf]
    | succ n => simpa [setIdx, structOf] using ih n

theorem structOf_tblSet (rs : List Router) (i k : Nat) (v : List (Int × Int)) :
    structOf (tblSet rs i k v) = structOf rs :=
  structOf_setIdx rs i _

theorem structOf_tblAppend (rs : List Router) (i k : Nat) (x : Int × Int) :
    structOf (tblAppend rs i k x) = structOf rs :=
  structOf_setIdx rs i _

theorem structOf_relaxEdgeState (s : List Router) (dId i : Nat) (nb : Nat × Int) :
    structOf (relaxEdgeState s dId i nb) = structOf s := by
  simp only [relaxEdgeState]
  split_ifs with h1 h2
  · rfl
  · exact structOf_tblAppend ..
  · rfl

theorem structOf_relaxRouterState (s : List Router) (dId i : Nat) :
    structOf (relaxRouterState s dId i) = structOf s := by
  unfold relaxRouterState
  split_ifs with h
  · rfl
  · exact foldl_inv (P := fun s' => structOf s' = structOf s) _ _ _
      (fun b c _ hb => (structOf_relaxEdgeState b dId i c).trans hb) rfl

theorem structOf_sweepState (s : List Router) (dId : Nat) :
    structOf (sweepState s dId) = structOf s :=
  foldl_inv (P := fun s' => structOf s' = structOf s) _ _ _
    (fun b c _ hb => (structOf_relaxRouterState b dId c).trans hb) rfl

theorem structOf_seedStage (rs : List Router) (dIdx : Nat) :
    structOf (seedStage rs dIdx) = structOf rs := by
  unfold seedStage
  refine foldl_inv (P := fun s' => structOf s' = structOf rs) _ _ _ ?_ (structOf_tblSet ..)
  intro b c _ hb
  split_ifs with h
  · exact hb
  · exact (structOf_tblSet ..).trans hb

theorem structOf_directStage (rs2 : List Router) (dIdx dId : Nat) :
    structOf (directStage rs2 dIdx dId) = structOf rs2 :=
  foldl_inv (P := fun s' => structOf s' = structOf rs2) _ _ _
    (fun b c _ hb => (structOf_tblAppend ..).trans hb) rfl

theorem structOf_destPhase (rs : List Router) (dIdx : Nat) :
    structOf (destPhase rs dIdx) = structOf rs := by
  unfold destPhase
  refine foldl_inv (P := fun s' => structOf s' = structOf rs) _ _ _
    (fun b c _ hb => (structOf_sweepState ..).trans hb) ?_
  exact (structOf_directStage ..).trans (structOf_seedStage ..)

theorem structOf_setupLoop (rs : List Router) : structOf (setupLoop rs) = structOf rs :=
  foldl_inv (P := fun s' => structOf s' = structOf rs) _ _ _
    (fun b c _ hb => (structOf_destPhase b c).trans hb) rfl

theorem length_of_structOf {a b : List Router} (h : structOf a = structOf b) :
    a.length = b.length := by
  have := congrArg List.length h
  simpa [structOf_length] using this

theorem id_of_structOf {a b : List Router} (h : structOf a = structOf b) (i : Nat) :
    (a.getD i default).id = (b.getD i default).id := by
  have := congrArg (fun st => (sGet st i).1) h
  simpa [structOf_getD] using this

theorem nbrs_of_structOf {a b : List Router} (h : structOf a = structOf b) (i : Nat) :
    (a.getD i default).nieghbors = (b.getD i default).nieghbors := by
  have := congrArg (fun st => (sGet st i).2) h
  simpa [structOf_getD] using this

/-! ### `applyColumn` and its interaction with the table operations -/

theorem applyColumn_length (rs : List Router) (dId : Nat) (c : List (List (Int × Int))) :
    (applyColumn rs dId c).length = rs.length := by
  induction rs generalizing c with
  | nil => rfl
  | cons r rest ih =>
    cases c with
    | nil => rfl
    | cons v cr => simpa [applyColumn] using ih cr

theorem applyColumn_getD_lt (rs : List Router) (dId : Nat) (c : List (List (Int × Int)))
    (i : Nat) (hr : i < rs.length) (hc : i < c.length) :
    (applyColumn rs dId c).getD i default =
      { rs.getD i default with
        routing_table := dictSet (rs.getD i default).routing_table dId (colGet c i) } := by
  induction rs generalizing c i with
  | nil => simp at hr
  | cons r rest ih =>
    cases c with
    | nil => simp at hc
    | cons v cr =>
      cases i with
      | zero => rfl
      | succ n =>
        simp only [List.length_cons] at hr hc
        simpa [applyColumn, colGet] using ih cr n (by omega) (by omega)

theorem applyColumn_getD_ge (rs : List Router) (dId : Nat) (c : List (List (Int × Int)))
    (i : Nat) (hc : c.length ≤ i) :
    (applyColumn rs dId c).getD i default = rs.getD i default := by
  induction rs generalizing c i with
  | nil => rfl
  | cons r rest ih =>
    cases c with
    | nil => rfl
    | cons v cr =>
      cases i with
      | zero => simp at hc
      | succ n =>
        simp only [List.length_cons] at hc
        simpa [applyColumn] using ih cr n (by omega)

theorem structOf_applyColumn (rs : List Router) (dId : Nat) (c : List (List (Int × Int))) :
    structOf (applyColumn rs dId c) = structOf rs := by
  induction rs generalizing c with
  | nil => rfl
  | cons r rest ih =>
    cases c with
    | nil => rfl
    | cons v cr => simpa [applyColumn, structOf] using ih cr

theorem applyColumn_id (rs : List Router) (dId : Nat) (c : List (List (Int × Int))) (i : Nat) :
    ((applyColumn rs dId c).getD i default).id = (rs.getD i default).id :=
  id_of_structOf (structOf_applyColumn rs dId c) i

theorem applyColumn_nbrs (rs : List Router) (dId : Nat) (c : List (List (Int × Int))) (i : Nat) :
    ((applyColumn rs dId c).getD i default).nieghbors = (rs.getD i default).nieghbors :=
  nbrs_of_structOf (structOf_applyColumn rs dId c) i

theorem tblGet_default (k : Nat) : tblGet (default : Router) k = [] := rfl

theorem tblGet_applyColumn_self (rs : List Router) (dId : Nat) (c : List (List (Int × Int)))
    (hlen : rs.length = c.length) (i : Nat) :
    tblGet ((applyColumn rs dId c).getD i default) dId = colGet c i := by
  by_cases hr : i < rs.length
  · rw [applyColumn_getD_lt rs dId c i hr (hlen ▸ hr)]
    simp [tblGet, dictGet_dictSet_self]
  · rw [applyColumn_getD_ge rs dId c i (by omega)]
    rw [getD_oob rs i default (by omega)]
    have hcg : colGet c i = [] := getD_oob c i [] (by omega)
    rw [hcg, tblGet_default]

theorem tblGet_applyColumn_ne (rs : List Router) (dId : Nat) (c : List (List (Int × Int)))
    (i k : Nat) (hk : k ≠ dId) :
    tblGet ((applyColumn rs dId c).getD i default) k = tblGet (rs.getD i default) k := by
  by_cases hr : i < rs.length
  · by_cases hc : i < c.length
    · rw [applyColumn_getD_lt rs dId c i hr hc]
      simp [tblGet, dictGet_dictSet_ne _ _ _ _ hk]
    · rw [applyColumn_getD_ge rs dId c i (by omega)]
  · have h1 : (applyColumn rs dId c).getD i default = default :=
      getD_oob _ _ _ (by rw [applyColumn_length]; omega)
    rw [h1, getD_oob rs i default (by omega)]

theorem tblAppend_applyColumn (rs : List Router) (dId : Nat) (c : List (List (Int × Int)))
    (hlen : rs.length = c.length) (i : Nat) (x : Int × Int) :
    tblAppend (applyColumn rs dId c) i dId x =
      applyColumn rs dId (setIdx c i (fun l => l ++ [x])) := by
  induction rs generalizing c i with
  | nil => rfl
  | cons r rest ih =>
    cases c with
    | nil => simp at hlen
    | cons v cr =>
      cases i with
      | zero =>
        simp only [applyColumn, tblAppend, setIdx]
        congr 1
        simp [dictAppend_dictSet]
      | succ n =>
        simp only [List.length_cons] at hlen
        simp only [applyColumn, tblAppend, setIdx] at *
        congr 1
        exact ih cr (by omega) n

/-! ### Simulation: each table-level stage equals its column mirror -/

theorem colRelaxEdge_length (c : List (List (Int × Int))) (i : Nat) (nb : Nat × Int) :
    (colRelaxEdge c i nb).length = c.length := by
  simp only [colRelaxEdge]
  split_ifs <;> simp [setIdx_length]

theorem colRelaxRouter_length (st : List (Nat × List (Nat × Int))) (dId : Nat)
    (c : List (List (Int × Int))) (i : Nat) :
    (colRelaxRouter st dId c i).length = c.length := by
  unfold colRelaxRouter
  split_ifs with h
  · rfl
  · exact foldl_inv (P := fun c' => c'.length = c.length) _ _ _
      (fun b nb _ hb => (colRelaxEdge_length b i nb).trans hb) rfl

theorem colSweep_length (st : List (Nat × List (Nat × Int))) (dId : Nat)
    (c : List (List (Int × Int))) :
    (colSweep st dId c).length = c.length :=
  foldl_inv (P := fun c' => c'.length = c.length) _ _ _
    (fun b j _ hb => (colRelaxRouter_length st dId b j).trans hb) rfl

theorem colDirectStep_length (st : List (Nat × List (Nat × Int))) (dId : Nat)
    (c : List (List (Int × Int))) (nr : Nat × Int) :
    (colDirectStep st dId c nr).length = c.length := by
  simp [colDirectStep, setIdx_length]

theorem seedCols_length (st : List (Nat × List (Nat × Int))) (dIdx : Nat) :
    (seedCols st dIdx).length = st.length := by
  simp [seedCols]

theorem relaxEdgeState_applyColumn (rs : List Router) (dId : Nat)
    (c : List (List (Int × Int))) (hlen : rs.length = c.length) (i : Nat) (nb : Nat × Int) :
    relaxEdgeState (applyColumn rs dId c) dId i nb =
      applyColumn rs dId (colRelaxEdge c i nb) := by
  simp only [relaxEdgeState, colRelaxEdge, tblGet_applyColumn_self rs dId c hlen]
  split_ifs with h1 h2
  · rfl
  · exact tblAppend_applyColumn rs dId c hlen i _
  · rfl

theorem relaxRouterState_applyColumn (rs : List Router) (dId : Nat)
    (c : List (List (Int × Int))) (hlen : rs.length = c.length) (i : Nat) :
    relaxRouterState (applyColumn rs dId c) dId i =
      applyColumn rs dId (colRelaxRouter (structOf rs) dId c i) := by
  simp only [relaxRouterState, colRelaxRouter, applyColumn_id, applyColumn_nbrs, structOf_getD]
  split_ifs with h
  · rfl
  · refine (foldl_hom_inv (P := fun c' => rs.length = c'.length)
      (f := fun c' => applyColumn rs dId c') _ _ _ _ ?_ ?_ hlen).symm
    · intro b nb _ hb
      rw [colRelaxEdge_length]; exact hb
    · intro b nb _ hb
      exact (relaxEdgeState_applyColumn rs dId b hb i nb).symm

theorem sweepState_applyColumn (rs : List Router) (dId : Nat)
    (c : List (List (Int × Int))) (hlen : rs.length = c.length) :
    sweepState (applyColumn rs dId c) dId =
      applyColumn rs dId (colSweep (structOf rs) dId c) := by
  unfold sweepState colSweep
  have hL : (applyColumn rs dId c).length = c.length := by
    rw [applyColumn_length]; exact hlen
  rw [hL]
  refine (foldl_hom_inv (P := fun c' => rs.length = c'.length)
    (f := fun c' => applyColumn rs dId c') _ _ _ _ ?_ ?_ hlen).symm
  · intro b j _ hb
    rw [colRelaxRouter_length]; exact hb
  · intro b j _ hb
    exact (relaxRouterState_applyColumn rs dId b hb j).symm

theorem directStage_applyColumn (rs : List Router) (dId : Nat)
    (c : List (List (Int × Int))) (hlen : rs.length = c.length) (dIdx : Nat) :
    directStage (applyColumn rs dId c) dIdx dId =
      applyColumn rs dId
        ((rs.getD dIdx default).nieghbors.foldl (colDirectStep (structOf rs) dId) c) := by
  unfold directStage
  rw [applyColumn_nbrs]
  refine (foldl_hom_inv (P := fun c' => rs.length = c'.length)
    (f := fun c' => applyColumn rs dId c') _ _ _ _ ?_ ?_ hlen).symm
  · intro b nr _ hb
    rw [colDirectStep_length]; exact hb
  · intro b nr _ hb
    simp only [colDirectStep, dseedCost, structOf_getD, applyColumn_nbrs]
    exact (tblAppend_applyColumn rs dId b hb nr.1 _).symm

/-! ### The seeding stage, elementwise -/

theorem tblSet_length (s : List Router) (i k : Nat) (v : List (Int × Int)) :
    (tblSet s i k v).length = s.length :=
  setIdx_length s i _

theorem tblAppend_length (s : List Router) (i k : Nat) (x : Int × Int) :
    (tblAppend s i k x).length = s.length :=
  setIdx_length s i _

theorem tblSet_id (s : List Router) (i k : Nat) (v : List (Int × Int)) (j : Nat) :
    ((tblSet s i k v).getD j default).id = (s.getD j default).id :=
  id_of_structOf (structOf_tblSet s i k v) j

theorem list_ext_getD {a b : List α} (d : α) (hlen : a.length = b.length)
    (h : ∀ j, j < a.length → a.getD j d = b.getD j d) : a = b := by
  apply List.ext_getElem hlen
  intro j h1 h2
  have hj := h j h1
  rwa [List.getD_eq_getElem a d h1, List.getD_eq_getElem b d h2] at hj

theorem seedLoop_getD (dId : Nat) (l : List Nat) (s : List Router) (j : Nat)
    (hnd : l.Nodup) (hl : ∀ x ∈ l, x < s.length) :
    (l.foldl (fun s' i => if (s'.getD i default).id = dId then s'
        else tblSet s' i dId [(-1, INFINITY)]) s).getD j default
    = if j ∈ l ∧ (s.getD j default).id ≠ dId
      then { s.getD j default with
             routing_table := dictSet (s.getD j default).routing_table dId [(-1, INFINITY)] }
      else s.getD j default := by
  induction l generalizing s with
  | nil => simp
  | cons i rest ih =>
    rw [List.nodup_cons] at hnd
    obtain ⟨hirest, hndr⟩ := hnd
    simp only [List.foldl_cons]
    by_cases hid : (s.getD i default).id = dId
    · rw [if_pos hid]
      rw [ih s hndr (fun x hx => hl x (List.mem_cons_of_mem _ hx))]
      by_cases hji : j = i
      · subst hji
        rw [if_neg (by intro hc; exact hirest hc.1), if_neg (by intro hc; exact hc.2 hid)]
      · simp [List.mem_cons, hji]
    · rw [if_neg hid]
      have hlen1 : (tblSet s i dId [(-1, INFINITY)]).length = s.length := tblSet_length ..
      rw [ih _ hndr (fun x hx => by rw [hlen1]; exact hl x (List.mem_cons_of_mem _ hx))]
      by_cases hji : j = i
      · subst hji
        have hget : (tblSet s j dId [(-1, INFINITY)]).getD j default =
            { s.getD j default with
              routing_table := dictSet (s.getD j default).routing_table dId [(-1, INFINITY)] } := by
          unfold tblSet
          exact getD_setIdx_self s j _ default (hl j (List.mem_cons_self _ _))
        rw [if_neg (by intro hc; exact hirest hc.1), hget,
          if_pos ⟨List.mem_cons_self _ _, hid⟩]
      · have hget : (tblSet s i dId [(-1, INFINITY)]).getD j default = s.getD j default := by
          unfold tblSet
          exact getD_setIdx_ne s i j _ default hji
        rw [hget]
        simp [List.mem_cons, hji]

theorem seedStage_length (rs : List Router) (dIdx : Nat) :
    (seedStage rs dIdx).length = rs.length := by
  unfold seedStage
  refine foldl_inv (P := fun (s' : List Router) => s'.length = rs.length) _ _ _ ?_
    (tblSet_length ..)
  intro b i _ hb
  split_ifs with h
  · exact hb
  · rw [tblSet_length]; exact hb

theorem seedStage_getD (rs : List Router) (dIdx : Nat) (hd : dIdx < rs.length)
    (hids : ∀ i, i < rs.length → (rs.getD i default).id = i) (j : Nat) (hj : j < rs.length) :
    (seedStage rs dIdx).getD j default =
      { rs.getD j default with
        routing_table := dictSet (rs.getD j default).routing_table dIdx
          (if j = dIdx then [((dIdx : Int), 0)] else [(-1, INFINITY)]) } := by
  unfold seedStage
  rw [hids dIdx hd]
  have hlen1 : (tblSet rs dIdx dIdx [((dIdx : Int), 0)]).length = rs.length := tblSet_length ..
  rw [seedLoop_getD dIdx _ _ j (List.nodup_range _)
    (fun x hx => by rw [hlen1] at hx ⊢; exact List.mem_range.mp hx)]
  have hid1 : ((tblSet rs dIdx dIdx [((dIdx : Int), 0)]).getD j default).id = j := by
    rw [tblSet_id]; exact hids j hj
  by_cases hji : j = dIdx
  · subst hji
    rw [if_neg (fun hc => hc.2 hid1)]
    have hget : (tblSet rs j j [((j : Int), 0)]).getD j default =
        { rs.getD j default with
          routing_table := dictSet (rs.getD j default).routing_table j [((j : Int), 0)] } := by
      unfold tblSet
      exact getD_setIdx_self rs j _ default hj
    rw [hget]
    simp
  · have hmem : j ∈ List.range (tblSet rs dIdx dIdx [((dIdx : Int), 0)]).length := by
      rw [hlen1]; exact List.mem_range.mpr hj
    rw [if_pos ⟨hmem, by rw [hid1]; exact hji⟩]
    have hget : (tblSet rs dIdx dIdx [((dIdx : Int), 0)]).getD j default = rs.getD j default := by
      unfold tblSet
      exact getD_setIdx_ne rs dIdx j _ default hji
    rw [hget]
    simp [hji]

/-! ### The per-destination characterization -/

theorem seedCols_getD (st : List (Nat × List (Nat × Int))) (dIdx j : Nat)
    (hj : j < st.length) :
    colGet (seedCols st dIdx) j =
      if j = dIdx then [(((sGet st dIdx).1 : Int), 0)] else [(-1, INFINITY)] := by
  unfold seedCols colGet
  rw [List.getD_eq_getElem _ _ (by simpa using hj)]
  rw [List.getElem_map]
  rw [List.getElem_range]

theorem seedStage_eq (rs : List Router) (dIdx : Nat) (hd : dIdx < rs.length)
    (hids : ∀ i, i < rs.length → (rs.getD i default).id = i) :
    seedStage rs dIdx = applyColumn rs dIdx (seedCols (structOf rs) dIdx) := by
  apply list_ext_getD (default : Router)
  · rw [seedStage_length, applyColumn_length]
  · intro j hj
    rw [seedStage_length] at hj
    rw [seedStage_getD rs dIdx hd hids j hj]
    rw [applyColumn_getD_lt rs dIdx _ j hj (by rw [seedCols_length, structOf_length]; exact hj)]
    rw [seedCols_getD _ _ _ (by rw [structOf_length]; exact hj)]
    have hsid : (sGet (structOf rs) dIdx).1 = dIdx := by
      rw [structOf_getD]; exact hids dIdx hd
    rw [hsid]

theorem colPhase_length (st : List (Nat × List (Nat × Int))) (dIdx : Nat) :
    (colPhase st dIdx).length = st.length := by
  unfold colPhase
  have h1 : ((sGet st dIdx).2.foldl (colDirectStep st (sGet st dIdx).1)
      (seedCols st dIdx)).length = st.length := by
    refine foldl_inv (P := fun (c : List (List (Int × Int))) => c.length = st.length) _ _ _ ?_
      (seedCols_length st dIdx)
    intro b nr _ hb
    rw [colDirectStep_length]; exact hb
  refine foldl_inv (P := fun (c : List (List (Int × Int))) => c.length = st.length) _ _ _ ?_ h1
  intro b x _ hb
  rw [colSweep_length]; exact hb

theorem destPhase_eq (rs : List Router) (dIdx : Nat) (hd : dIdx < rs.length)
    (hids : ∀ i, i < rs.length → (rs.getD i default).id = i) :
    destPhase rs dIdx = applyColumn rs dIdx (colPhase (structOf rs) dIdx) := by
  have hsid : (sGet (structOf rs) dIdx).1 = dIdx := by
    rw [structOf_getD]; exact hids dIdx hd
  have hsnb : (sGet (structOf rs) dIdx).2 = (rs.getD dIdx default).nieghbors := by
    rw [structOf_getD]
  have hc0 : rs.length = (seedCols (structOf rs) dIdx).length := by
    rw [seedCols_length, structOf_length]
  simp only [destPhase, colPhase, hsid, hsnb]
  rw [hids dIdx hd, seedStage_eq rs dIdx hd hids,
    directStage_applyColumn rs dIdx _ hc0 dIdx]
  set c1 := (rs.getD dIdx default).nieghbors.foldl (colDirectStep (structOf rs) dIdx)
    (seedCols (structOf rs) dIdx) with hc1def
  have hc1 : rs.length = c1.length := by
    rw [hc1def]
    refine (foldl_inv (P := fun (c : List (List (Int × Int))) => rs.length = c.length) _ _ _ ?_
      hc0)
    intro b nr _ hb
    rw [colDirectStep_length]; exact hb
  have hL : (applyColumn rs dIdx c1).length = c1.length := by
    rw [applyColumn_length, hc1]
  rw [hL]
  refine (foldl_hom_inv (P := fun (c : List (List (Int × Int))) => rs.length = c.length)
    (f := fun c => applyColumn rs dIdx c) _ _ _ _ ?_ ?_ hc1).symm
  · intro b x _ hb
    rw [colSweep_length]; exact hb
  · intro b x _ hb
    exact (sweepState_applyColumn rs dIdx b hb).symm

theorem destPhase_tblGet_self (rs : List Router) (dIdx : Nat) (hd : dIdx < rs.length)
    (hids : ∀ i, i < rs.length → (rs.getD i default).id = i) (i : Nat) :
    tblGet ((destPhase rs dIdx).getD i default) dIdx =
      colGet (colPhase (structOf rs) dIdx) i := by
  rw [destPhase_eq rs dIdx hd hids]
  exact tblGet_applyColumn_self rs dIdx _ (by rw [colPhase_length, structOf_length]) i

theorem destPhase_tblGet_ne (rs : List Router) (dIdx : Nat) (hd : dIdx < rs.length)
    (hids : ∀ i, i < rs.length → (rs.getD i default).id = i) (i k : Nat) (hk : k ≠ dIdx) :
    tblGet ((destPhase rs dIdx).getD i default) k = tblGet (rs.getD i default) k := by
  rw [destPhase_eq rs dIdx hd hids]
  exact tblGet_applyColumn_ne rs dIdx _ i k hk

/-! ### The characterization of the whole destination loop -/

theorem setupLoop_aux (rs : List Router)
    (hids : ∀ i, i < rs.length → (rs.getD i default).id = i) :
    ∀ (l : List Nat) (s : List Router), structOf s = structOf rs →
      (∀ x ∈ l, x < rs.length) → l.Nodup →
      (structOf (l.foldl destPhase s) = structOf rs) ∧
      (∀ k, (∀ x ∈ l, k ≠ x) →
        ∀ i, tblGet ((l.foldl destPhase s).getD i default) k = tblGet (s.getD i default) k) ∧
      (∀ d, d ∈ l → ∀ i,
        tblGet ((l.foldl destPhase s).getD i default) d =
          colGet (colPhase (structOf rs) d) i) := by
  intro l
  induction l with
  | nil =>
    intro s hso _ _
    refine ⟨hso, fun k _ i => rfl, fun d hd => absurd hd (List.not_mem_nil d)⟩
  | cons d0 rest ih =>
    intro s hso hlt hnd
    rw [List.nodup_cons] at hnd
    obtain ⟨hd0rest, hndr⟩ := hnd
    have hlen : s.length = rs.length := length_of_structOf hso
    have hids' : ∀ i, i < s.length → (s.getD i default).id = i := by
      intro i hi
      rw [id_of_structOf hso]
      exact hids i (by omega)
    have hd0 : d0 < s.length := by
      rw [hlen]; exact hlt d0 (List.mem_cons_self _ _)
    have hso1 : structOf (destPhase s d0) = structOf rs :=
      (structOf_destPhase s d0).trans hso
    obtain ⟨ihso, ihframe, ihcol⟩ := ih (destPhase s d0) hso1
      (fun x hx => hlt x (List.mem_cons_of_mem _ hx)) hndr
    simp only [List.foldl_cons]
    refine ⟨ihso, ?_, ?_⟩
    · intro k hk i
      rw [ihframe k (fun x hx => hk x (List.mem_cons_of_mem _ hx)) i]
      exact destPhase_tblGet_ne s d0 hd0 hids' i k (hk d0 (List.mem_cons_self _ _))
    · intro d hdmem i
      rcases List.mem_cons.mp hdmem with hdd | hdrest
      · subst hdd
        rw [ihframe d (fun x hx => fun he => hd0rest (he ▸ hx)) i]
        rw [destPhase_tblGet_self s d hd0 hids' i]
        have : structOf s = structOf rs := hso
        rw [this]
      · exact ihcol d hdrest i

/-- The central characterization: after `setup_routing_tables`, the table
entry of router `i` for destination id `d` is the column computed by
`colPhase` on the immutable structure, independently for each destination. -/
theorem setupLoop_tblGet (rs : List Router)
    (hids : ∀ i, i < rs.length → (rs.getD i default).id = i) (d : Nat)
    (hd : d < rs.length) (i : Nat) :
    tblGet ((setupLoop rs).getD i default) d = colGet (colPhase (structOf rs) d) i := by
  unfold setupLoop
  exact (setupLoop_aux rs hids (List.range rs.length) rs rfl
    (fun x hx => List.mem_range.mp hx) (List.nodup_range _)).2.2 d (List.mem_range.mpr hd) i

theorem pathSum_cons (nb : Nat × Int) (p : List (Nat × Int)) :
    pathSum (nb :: p) = nb.2 + pathSum p := by
  simp [pathSum]

theorem pathVerts_cons (i : Nat) (nb : Nat × Int) (p : List (Nat × Int)) :
    pathVerts i (nb :: p) = i :: pathVerts nb.1 p := by
  simp [pathVerts]

theorem sGet_oob (st : List (Nat × List (Nat × Int))) (i : Nat) (h : st.length ≤ i) :
    sGet st i = (0, []) :=
  getD_oob st i _ h

theorem mem_lt_of_sGet (st : List (Nat × List (Nat × Int))) (i : Nat) (nb : Nat × Int)
    (h : nb ∈ (sGet st i).2) : i < st.length := by
  by_contra hc
  rw [sGet_oob st i (by omega)] at h
  exact absurd h (List.not_mem_nil nb)

theorem rpath_verts_lt (hW : WFs st) (dIdx : Nat) (hdlt : dIdx < st.length) :
    ∀ (p : List (Nat × Int)) (i : Nat), i < st.length → RPath st dIdx i p →
      ∀ v ∈ pathVerts i p, v < st.length := by
  intro p
  induction p with
  | nil =>
    intro i hi _ v hv
    simp [pathVerts] at hv
    omega
  | cons nb rest ih =>
    intro i hi hp v hv
    obtain ⟨hmem, hrest⟩ := hp
    rw [pathVerts_cons] at hv
    rcases List.mem_cons.mp hv with hvi | hvr
    · omega
    · exact ih nb.1 (hW.nbrLt i hi nb hmem) hrest v hvr

theorem pathSum_nonneg (hW : WFs st) (dIdx : Nat) :
    ∀ (p : List (Nat × Int)) (i : Nat), RPath st dIdx i p → 0 ≤ pathSum p := by
  intro p
  induction p with
  | nil => intro i _; simp [pathSum]
  | cons nb rest ih =>
    intro i hp
    obtain ⟨hmem, hrest⟩ := hp
    have hi : i < st.length := mem_lt_of_sGet st i nb hmem
    have he : 0 < nb.2 := hW.costPos i hi nb hmem
    have := ih nb.1 hrest
    rw [pathSum_cons]
    omega

theorem rpath_dest_mem (st : List (Nat × List (Nat × Int))) (dIdx : Nat) :
    ∀ (p : List (Nat × Int)) (i : Nat), RPath st dIdx i p → dIdx ∈ pathVerts i p := by
  intro p
  induction p with
  | nil =>
    intro i hp
    rw [hp]
    exact List.mem_cons_self _ _
  | cons nb rest ih =>
    intro i hp
    rw [pathVerts_cons]
    exact List.mem_cons_of_mem _ (ih nb.1 hp.2)

theorem rpath_suffix (hW : WFs st) (dIdx : Nat) :
    ∀ (p : List (Nat × Int)) (i j : Nat), RPath st dIdx i p → (pathVerts i p).Nodup →
      j ∈ pathVerts i p →
      ∃ q, RPath st dIdx j q ∧ (pathVerts j q).Nodup ∧ pathSum q ≤ pathSum p := by
  intro p
  induction p with
  | nil =>
    intro i j hp _ hj
    simp [pathVerts] at hj
    subst hj
    exact ⟨[], hp, by simp [pathVerts], le_refl _⟩
  | cons nb rest ih =>
    intro i j hp hnd hj
    obtain ⟨hmem, hrest⟩ := hp
    rw [pathVerts_cons] at hnd hj
    have hndr : (pathVerts nb.1 rest).Nodup := (List.nodup_cons.mp hnd).2
    have hi : i < st.length := mem_lt_of_sGet st i nb hmem
    have he : 0 < nb.2 := hW.costPos i hi nb hmem
    rcases List.mem_cons.mp hj with hji | hjr
    · subst hji
      exact ⟨nb :: rest, ⟨hmem, hrest⟩, by rw [pathVerts_cons]; exact hnd, le_refl _⟩
    · obtain ⟨q, h1, h2, h3⟩ := ih nb.1 j hrest hndr hjr
      refine ⟨q, h1, h2, ?_⟩
      rw [pathSum_cons]
      omega

theorem rpath_extend (hW : WFs st) (dIdx : Nat) (i : Nat) (nb : Nat × Int)
    (hi : i < st.length) (hnb : nb ∈ (sGet st i).2) (p : List (Nat × Int))
    (hp : RPath st dIdx nb.1 p) (hnd : (pathVerts nb.1 p).Nodup) (b : Int)
    (hs : pathSum p ≤ b) :
    ∃ q, RPath st dIdx i q ∧ (pathVerts i q).Nodup ∧ pathSum q ≤ nb.2 + b := by
  have he : 0 < nb.2 := hW.costPos i hi nb hnb
  by_cases hmem : i ∈ pathVerts nb.1 p
  · obtain ⟨q, h1, h2, h3⟩ := rpath_suffix hW dIdx p nb.1 i hp hnd hmem
    exact ⟨q, h1, h2, by omega⟩
  · refine ⟨nb :: p, ⟨hnb, hp⟩, ?_, ?_⟩
    · rw [pathVerts_cons]
      exact List.nodup_cons.mpr ⟨hmem, hnd⟩
    · rw [pathSum_cons]
      omega

theorem simple_path_length (hW : WFs st) (dIdx : Nat) (hdlt : dIdx < st.length)
    (i : Nat) (hi : i < st.length) (p : List (Nat × Int)) (hp : RPath st dIdx i p)
    (hnd : (pathVerts i p).Nodup) : p.length ≤ st.length := by
  have hsub : pathVerts i p ⊆ List.range st.length := by
    intro v hv
    rw [List.mem_range]
    exact rpath_verts_lt hW dIdx hdlt p i hi hp v hv
  have hle := (hnd.subperm hsub).length_le
  simp [pathVerts] at hle
  omega

/-! ### Last-entry helpers -/

theorem lastEntry_append (l : List (Int × Int)) (x : Int × Int) :
    lastEntry (l ++ [x]) = x := by
  simp [lastEntry]

theorem lastCost_append (l : List (Int × Int)) (x : Int × Int) :
    lastCost (l ++ [x]) = x.2 := by
  simp [lastCost, lastEntry_append]

theorem lastEntry_mem (l : List (Int × Int)) (h : l ≠ []) : lastEntry l ∈ l := by
  unfold lastEntry
  rw [List.getLastD_eq_getLast? _ _, List.getLast?_eq_getLast _ h]
  exact List.getLast_mem h

theorem lastEntry_singleton (x : Int × Int) : lastEntry [x] = x := rfl

/-- In a list whose adjacent costs never increase, the last element's cost
is minimal. -/
theorem last_min_of_desc :
    ∀ (l : List (Int × Int)), l.Chain' (fun a b => b.2 ≤ a.2) → l ≠ [] →
      ∀ x ∈ l, lastCost l ≤ x.2 := by
  intro l
  induction l with
  | nil => intro _ h; exact absurd rfl h
  | cons a rest ih =>
    intro hc _ x hx
    cases rest with
    | nil =>
      simp at hx
      subst hx
      exact le_refl _
    | cons b rest' =>
      have hcc := List.chain'_cons.mp hc
      have hlast : lastCost (a :: b :: rest') = lastCost (b :: rest') := by
        simp [lastCost, lastEntry, List.getLastD]
      rw [hlast]
      rcases List.mem_cons.mp hx with hxa | hxr
      · subst hxa
        have hb := ih hcc.2 (by simp) b (List.mem_cons_self _ _)
        have := hcc.1
        omega
      · exact ih hcc.2 (by simp) x hxr

theorem INFINITY_pos : (0 : Int) < INFINITY := by norm_num [INFINITY]

theorem colGet_setIdx_self (c : List (List (Int × Int))) (i : Nat)
    (f : List (Int × Int) → List (Int × Int)) (h : i < c.length) :
    colGet (setIdx c i f) i = f (colGet c i) :=
  getD_setIdx_self c i f [] h

theorem colGet_setIdx_ne (c : List (List (Int × Int))) (i j : Nat)
    (f : List (Int × Int) → List (Int × Int)) (h : j ≠ i) :
    colGet (setIdx c i f) j = colGet c j :=
  getD_setIdx_ne c i j f [] h


theorem getLast?_eq_lastEntry (l : List (Int × Int)) (h : l ≠ []) :
    l.getLast? = some (lastEntry l) := by
  rw [List.getLast?_eq_getLast _ h]
  congr 1
  unfold lastEntry
  rw [List.getLastD_eq_getLast? _ _, List.getLast?_eq_getLast _ h]
  rfl

/-- Appending an entry whose cost is at most the current last cost, and
which carries a path witness when finite, preserves the invariant. -/
theorem colInv_append (hW : WFs st) (hinv : ColInv st dIdx c) (i : Nat)
    (hi : i < st.length) (hine : i ≠ dIdx) (x : Int × Int)
    (hxle : x.2 ≤ lastCost (colGet c i)) (hxub : x.2 ≤ INFINITY)
    (hxlb : x.2 < INFINITY →
      ∃ p, RPath st dIdx i p ∧ (pathVerts i p).Nodup ∧ pathSum p ≤ x.2) :
    ColInv st dIdx (setIdx c i (fun l => l ++ [x])) := by
  have hic : i < c.length := by rw [hinv.len]; exact hi
  refine ⟨?_, ?_, ?_, ?_, ?_, ?_⟩
  · rw [setIdx_length]; exact hinv.len
  · rw [colGet_setIdx_ne c i dIdx _ (fun h => hine h.symm)]
    exact hinv.selfCol
  · intro j hj
    by_cases hji : j = i
    · subst hji
      rw [colGet_setIdx_self c j _ hic]
      simp
    · rw [colGet_setIdx_ne c i j _ hji]
      exact hinv.ne j hj
  · intro j hj
    by_cases hji : j = i
    · subst hji
      rw [colGet_setIdx_self c j _ hic]
      rw [List.chain'_append]
      refine ⟨hinv.desc j hj, List.chain'_singleton x, ?_⟩
      intro a ha y hy
      rw [getLast?_eq_lastEntry _ (hinv.ne j hj)] at ha
      simp at ha hy
      subst ha
      subst hy
      exact hxle
    · rw [colGet_setIdx_ne c i j _ hji]
      exact hinv.desc j hj
  · intro j hj y hy
    by_cases hji : j = i
    · subst hji
      rw [colGet_setIdx_self c j _ hic] at hy
      rcases List.mem_append.mp hy with h1 | h2
      · exact hinv.ub j hj y h1
      · simp at h2
        subst h2
        exact hxub
    · rw [colGet_setIdx_ne c i j _ hji] at hy
      exact hinv.ub j hj y hy
  · intro j hj y hy hyfin
    by_cases hji : j = i
    · subst hji
      rw [colGet_setIdx_self c j _ hic] at hy
      rcases List.mem_append.mp hy with h1 | h2
      · exact hinv.lb j hj y h1 hyfin
      · simp at h2
        subst h2
        exact hxlb hyfin
    · rw [colGet_setIdx_ne c i j _ hji] at hy
      exact hinv.lb j hj y hy hyfin

/-! ### Invariance of `ColInv` under the relaxation and seeding steps -/

theorem colInv_relaxEdge (hW : WFs st) (hinv : ColInv st dIdx c) (i : Nat)
    (hi : i < st.length) (hine : i ≠ dIdx) (nb : Nat × Int) (hnb : nb ∈ (sGet st i).2) :
    ColInv st dIdx (colRelaxEdge c i nb) := by
  simp only [colRelaxEdge]
  split_ifs with h1 h2
  · exact hinv
  · have hn1 : nb.1 < st.length := hW.nbrLt i hi nb hnb
    have hnne := hinv.ne nb.1 hn1
    have hnub : (lastEntry (colGet c nb.1)).2 ≤ INFINITY :=
      hinv.ub nb.1 hn1 _ (lastEntry_mem _ hnne)
    have hnfin : (lastEntry (colGet c nb.1)).2 < INFINITY := lt_of_le_of_ne hnub h1
    have hsub : (lastEntry (colGet c i)).2 ≤ INFINITY :=
      hinv.ub i hi _ (lastEntry_mem _ (hinv.ne i hi))
    refine colInv_append hW hinv i hi hine _ (le_of_lt h2) (by omega) ?_
    intro _
    obtain ⟨p, hp, hnd, hs⟩ := hinv.lb nb.1 hn1 _ (lastEntry_mem _ hnne) hnfin
    exact rpath_extend hW dIdx i nb hi hnb p hp hnd _ hs
  · exact hinv

theorem colInv_relaxRouter (hW : WFs st) (hdlt : dIdx < st.length)
    (hinv : ColInv st dIdx c) (i : Nat) :
    ColInv st dIdx (colRelaxRouter st dIdx c i) := by
  unfold colRelaxRouter
  split_ifs with h
  · exact hinv
  · by_cases hi : i < st.length
    · have hine : i ≠ dIdx := by
        intro he
        subst he
        exact h (hW.dense i hi)
      exact foldl_inv (P := ColInv st dIdx) _ _ _
        (fun b nb hnbmem hb => colInv_relaxEdge hW hb i hi hine nb hnbmem) hinv
    · rw [sGet_oob st i (by omega)]
      simpa using hinv

theorem colInv_sweep (hW : WFs st) (hdlt : dIdx < st.length) (hinv : ColInv st dIdx c) :
    ColInv st dIdx (colSweep st dIdx c) :=
  foldl_inv (P := ColInv st dIdx) _ _ _
    (fun b j _ hb => colInv_relaxRouter hW hdlt hb j) hinv

/-! ### The incumbent cost never increases -/

theorem colLe_refl (c : List (List (Int × Int))) : ColLe c c := fun _ => le_refl _

theorem colLe_trans (a b c : List (List (Int × Int))) :
    ColLe a b → ColLe b c → ColLe a c :=
  fun h1 h2 i => le_trans (h2 i) (h1 i)

theorem colLe_relaxEdge (c : List (List (Int × Int))) (i : Nat) (nb : Nat × Int) :
    ColLe c (colRelaxEdge c i nb) := by
  intro j
  simp only [colRelaxEdge]
  split_ifs with h1 h2
  · exact le_refl _
  · by_cases hic : i < c.length
    · by_cases hji : j = i
      · subst hji
        rw [colGet_setIdx_self c j _ hic, lastCost_append]
        exact le_of_lt h2
      · rw [colGet_setIdx_ne c i j _ hji]
    · rw [setIdx_oob c i _ (by omega)]
  · exact le_refl _

theorem colLe_relaxRouter (st : List (Nat × List (Nat × Int))) (dId : Nat)
    (c : List (List (Int × Int))) (i : Nat) : ColLe c (colRelaxRouter st dId c i) := by
  unfold colRelaxRouter
  split_ifs with h
  · exact colLe_refl c
  · exact foldl_rel ColLe _ _ _ colLe_refl colLe_trans
      (fun b nb _ => colLe_relaxEdge b i nb)

theorem colLe_sweep (st : List (Nat × List (Nat × Int))) (dId : Nat)
    (c : List (List (Int × Int))) : ColLe c (colSweep st dId c) :=
  foldl_rel ColLe _ _ _ colLe_refl colLe_trans
    (fun b j _ => colLe_relaxRouter st dId b j)

theorem foldl_relaxEdge_length (l : List (Nat × Int)) (c : List (List (Int × Int)))
    (i : Nat) : (l.foldl (fun c' nb => colRelaxEdge c' i nb) c).length = c.length :=
  foldl_inv (P := fun c' => c'.length = c.length) _ _ _
    (fun b nb _ hb => (colRelaxEdge_length b i nb).trans hb) rfl

theorem foldl_relaxRouter_length (l : List Nat) (st : List (Nat × List (Nat × Int)))
    (dId : Nat) (c : List (List (Int × Int))) :
    (l.foldl (colRelaxRouter st dId) c).length = c.length :=
  foldl_inv (P := fun c' => c'.length = c.length) _ _ _
    (fun b j _ hb => (colRelaxRouter_length st dId b j).trans hb) rfl

/-! ### Invariants of the seeding stages -/

theorem colInv_seedCols (hW : WFs st) (hdlt : dIdx < st.length) :
    ColInv st dIdx (seedCols st dIdx) := by
  have hself : colGet (seedCols st dIdx) dIdx = [((dIdx : Int), 0)] := by
    rw [seedCols_getD st dIdx dIdx hdlt, if_pos rfl, hW.dense dIdx hdlt]
  refine ⟨seedCols_length st dIdx, hself, ?_, ?_, ?_, ?_⟩
  · intro i hi
    rw [seedCols_getD st dIdx i hi]
    split_ifs <;> simp
  · intro i hi
    rw [seedCols_getD st dIdx i hi]
    split_ifs <;> exact List.chain'_singleton _
  · intro i hi x hx
    rw [seedCols_getD st dIdx i hi] at hx
    split_ifs at hx
    · simp at hx
      rw [hx]
      exact le_of_lt INFINITY_pos
    · simp at hx
      simp [hx]
  · intro i hi x hx hxfin
    rw [seedCols_getD st dIdx i hi] at hx
    split_ifs at hx with hid
    · subst hid
      simp at hx
      refine ⟨[], rfl, by simp [pathVerts], ?_⟩
      rw [hx]
      simp [pathSum]
    · simp at hx
      rw [hx] at hxfin
      exact absurd hxfin (lt_irrefl _)

theorem dseedCost_cases (hW : WFs st) (j : Nat) (hj : j < st.length) (dIdx : Nat) :
    dseedCost st dIdx j = INFINITY ∨
      ((dIdx, dseedCost st dIdx j) ∈ (sGet st j).2 ∧ 0 < dseedCost st dIdx j ∧
        dseedCost st dIdx j < INFINITY) := by
  unfold dseedCost
  cases hf : (sGet st j).2.find? (fun n => n.1 == dIdx) with
  | none => left; rfl
  | some nb =>
    right
    have hmem := List.mem_of_find?_eq_some hf
    have hpred : nb.1 = dIdx := by simpa using List.find?_some hf
    simp only [Option.map_some', Option.getD_some]
    exact ⟨by rw [← hpred]; simpa using hmem,
      hW.costPos j hj nb hmem, hW.costLtInf j hj nb hmem⟩

theorem dInv_seedCols (hW : WFs st) (hdlt : dIdx < st.length) :
    DInv st dIdx (seedCols st dIdx) := by
  refine ⟨colInv_seedCols hW hdlt, ?_⟩
  intro j hj
  by_cases hjlt : j < st.length
  · rw [seedCols_getD st dIdx j hjlt, if_neg hj]
    left
    rfl
  · left
    unfold colGet
    rw [getD_oob _ _ _ (by rw [seedCols_length]; omega)]
    rfl

theorem dInv_directStep (hW : WFs st) (hdlt : dIdx < st.length) (hDI : DInv st dIdx c)
    (nr : Nat × Int) (hnr : nr ∈ (sGet st dIdx).2) :
    DInv st dIdx (colDirectStep st dIdx c nr) := by
  obtain ⟨hinv, hlast⟩ := hDI
  have hn1 : nr.1 < st.length := hW.nbrLt dIdx hdlt nr hnr
  have hns : nr.1 ≠ dIdx := hW.noSelf dIdx hdlt nr hnr
  have hcases := dseedCost_cases hW nr.1 hn1 dIdx
  have hdub : dseedCost st dIdx nr.1 ≤ INFINITY := by
    rcases hcases with h | h
    · exact le_of_eq h
    · exact le_of_lt h.2.2
  have hxle : dseedCost st dIdx nr.1 ≤ lastCost (colGet c nr.1) := by
    rcases hlast nr.1 hns with h | h
    · rw [h]; exact hdub
    · rw [h]
  unfold colDirectStep
  constructor
  · refine colInv_append hW hinv nr.1 hn1 hns _ hxle hdub ?_
    intro hfin
    rcases hcases with h | h
    · rw [h] at hfin
      exact absurd hfin (lt_irrefl _)
    · refine ⟨[(dIdx, dseedCost st dIdx nr.1)], ⟨h.1, rfl⟩, by simp [pathVerts, hns], ?_⟩
      simp [pathSum]
  · intro j hj
    by_cases hji : j = nr.1
    · subst hji
      right
      rw [colGet_setIdx_self c nr.1 _ (by rw [hinv.len]; exact hn1), lastCost_append]
    · rw [colGet_setIdx_ne c nr.1 j _ hji]
      exact hlast j hj

theorem dInv_directFold (hW : WFs st) (hdlt : dIdx < st.length) (hDI : DInv st dIdx c) :
    DInv st dIdx ((sGet st dIdx).2.foldl (colDirectStep st dIdx) c) :=
  foldl_inv (P := DInv st dIdx) _ _ _
    (fun b nr hm hb => dInv_directStep hW hdlt hb nr hm) hDI

/-! ### The upper bound after `k` sweeps -/

theorem ubk_of_colLe (h : UBk st dIdx k c) (hle : ColLe c c') : UBk st dIdx k c' :=
  fun i hi p hp hnd hl hs => le_trans (hle i) (h i hi p hp hnd hl hs)

theorem ubk_zero (hinv : ColInv st dIdx c) : UBk st dIdx 0 c := by
  intro i hi p hp hnd hl hs
  have hp0 : p = [] := List.length_eq_zero.mp (Nat.le_zero.mp hl)
  subst hp0
  have hid : i = dIdx := hp
  subst hid
  rw [hinv.selfCol]
  simp [pathSum, lastCost, lastEntry]

theorem ubk_sweep (hW : WFs st) (hdlt : dIdx < st.length) (hinv : ColInv st dIdx c)
    (hub : UBk st dIdx k c) : UBk st dIdx (k + 1) (colSweep st dIdx c) := by
  intro i hi p hp hnd hl hs
  cases p with
  | nil =>
    have hid : i = dIdx := hp
    subst hid
    rw [(colInv_sweep hW hdlt hinv).selfCol]
    simp [pathSum, lastCost, lastEntry]
  | cons nb rest =>
    obtain ⟨hmem, hrest⟩ := hp
    have hv : nb.1 < st.length := hW.nbrLt i hi nb hmem
    have he : 0 < nb.2 := hW.costPos i hi nb hmem
    rw [pathSum_cons] at hs ⊢
    have h0r : 0 ≤ pathSum rest := pathSum_nonneg hW dIdx rest nb.1 hrest
    have hsr : pathSum rest < INFINITY := by omega
    rw [pathVerts_cons] at hnd
    have hndc := List.nodup_cons.mp hnd
    have hbase : lastCost (colGet c nb.1) ≤ pathSum rest :=
      hub nb.1 hv rest hrest hndc.2 (by simpa using hl) hsr
    have hine : i ≠ dIdx := by
      intro he'
      subst he'
      exact hndc.1 (rpath_dest_mem st i rest nb.1 hrest)
    unfold colSweep
    have himem : i ∈ List.range c.length := by
      rw [hinv.len]
      exact List.mem_range.mpr hi
    obtain ⟨L1, L2, hsplit⟩ := List.append_of_mem himem
    rw [hsplit, List.foldl_append, List.foldl_cons]
    have hle1 : ColLe c (L1.foldl (colRelaxRouter st dIdx) c) :=
      foldl_rel ColLe _ _ _ colLe_refl colLe_trans
        (fun b j _ => colLe_relaxRouter st dIdx b j)
    set c1 := L1.foldl (colRelaxRouter st dIdx) c with hc1def
    have hlen1 : c1.length = st.length := by
      rw [hc1def, foldl_relaxRouter_length, hinv.len]
    have hmid : lastCost (colGet (colRelaxRouter st dIdx c1 i) i) ≤ nb.2 + pathSum rest := by
      unfold colRelaxRouter
      rw [if_neg (by rw [hW.dense i hi]; exact hine)]
      obtain ⟨M1, M2, hm⟩ := List.append_of_mem hmem
      rw [hm, List.foldl_append, List.foldl_cons]
      set c2 := M1.foldl (fun c' nb' => colRelaxEdge c' i nb') c1 with hc2def
      have hle2 : ColLe c1 c2 := by
        rw [hc2def]
        exact foldl_rel ColLe _ _ _ colLe_refl colLe_trans
          (fun b nb' _ => colLe_relaxEdge b i nb')
      have hlen2 : c2.length = st.length := by
        rw [hc2def, foldl_relaxEdge_length, hlen1]
      have hnv : (lastEntry (colGet c2 nb.1)).2 ≤ pathSum rest :=
        le_trans (hle2 nb.1) (le_trans (hle1 nb.1) hbase)
      have hkey : lastCost (colGet (colRelaxEdge c2 i nb) i) ≤ nb.2 + pathSum rest := by
        simp only [colRelaxEdge]
        split_ifs with h1 h2
        · exfalso
          omega
        · rw [colGet_setIdx_self c2 i _ (by rw [hlen2]; exact hi), lastCost_append]
          show nb.2 + (lastEntry (colGet c2 nb.1)).2 ≤ nb.2 + pathSum rest
          omega
        · show (lastEntry (colGet c2 i)).2 ≤ nb.2 + pathSum rest
          omega
      have hle3 : ColLe (colRelaxEdge c2 i nb)
          (M2.foldl (fun c' nb' => colRelaxEdge c' i nb') (colRelaxEdge c2 i nb)) :=
        foldl_rel ColLe _ _ _ colLe_refl colLe_trans
          (fun b nb' _ => colLe_relaxEdge b i nb')
      exact le_trans (hle3 i) hkey
    have hle4 : ColLe (colRelaxRouter st dIdx c1 i)
        (L2.foldl (colRelaxRouter st dIdx) (colRelaxRouter st dIdx c1 i)) :=
      foldl_rel ColLe _ _ _ colLe_refl colLe_trans
        (fun b j _ => colLe_relaxRouter st dIdx b j)
    exact le_trans (hle4 i) hmid

theorem ubk_fold (hW : WFs st) (hdlt : dIdx < st.length) :
    ∀ (l : List Nat) (k : Nat) (c), ColInv st dIdx c → UBk st dIdx k c →
      UBk st dIdx (k + l.length) (l.foldl (fun c' _ => colSweep st dIdx c') c) := by
  intro l
  induction l with
  | nil =>
    intro k c _ hub
    simpa using hub
  | cons x rest ih =>
    intro k c hinv hub
    simp only [List.foldl_cons, List.length_cons]
    have harith : k + (rest.length + 1) = (k + 1) + rest.length := by omega
    rw [harith]
    exact ih (k + 1) (colSweep st dIdx c) (colInv_sweep hW hdlt hinv)
      (ubk_sweep hW hdlt hinv hub)

/-! ### Master facts about one destination's final column -/

theorem colPhase_colInv (hW : WFs st) (hdlt : dIdx < st.length) :
    ColInv st dIdx (colPhase st dIdx) := by
  simp only [colPhase, hW.dense dIdx hdlt]
  have hD := dInv_directFold hW hdlt (dInv_seedCols hW hdlt)
  exact foldl_inv (P := ColInv st dIdx) _ _ _
    (fun b x _ hb => colInv_sweep hW hdlt hb) hD.1

theorem colPhase_ub (hW : WFs st) (hdlt : dIdx < st.length) (i : Nat)
    (hi : i < st.length) (p : List (Nat × Int)) (hp : RPath st dIdx i p)
    (hnd : (pathVerts i p).Nodup) (hs : pathSum p < INFINITY) :
    lastCost (colGet (colPhase st dIdx) i) ≤ pathSum p := by
  have hplen : p.length ≤ st.length := simple_path_length hW dIdx hdlt i hi p hp hnd
  simp only [colPhase, hW.dense dIdx hdlt]
  have hD := dInv_directFold hW hdlt (dInv_seedCols hW hdlt)
  have hlen1 : ((sGet st dIdx).2.foldl (colDirectStep st dIdx)
      (seedCols st dIdx)).length = st.length := hD.1.len
  have h := ubk_fold hW hdlt
    (List.range ((sGet st dIdx).2.foldl (colDirectStep st dIdx) (seedCols st dIdx)).length)
    0 _ hD.1 (ubk_zero hD.1)
  rw [List.length_range] at h
  exact h i hi p hp hnd (by omega) hs

theorem colPhase_self (hW : WFs st) (hdlt : dIdx < st.length) :
    colGet (colPhase st dIdx) dIdx = [((dIdx : Int), 0)] :=
  (colPhase_colInv hW hdlt).selfCol

theorem colRelaxEdge_other (c : List (List (Int × Int))) (j : Nat) (nb : Nat × Int)
    (i : Nat) (hij : i ≠ j) : colGet (colRelaxEdge c j nb) i = colGet c i := by
  simp only [colRelaxEdge]
  split_ifs with h1 h2
  · rfl
  · exact colGet_setIdx_ne c j i _ hij
  · rfl

/-- A router with no listing path to the destination, and not listed among
the destination's neighbors, keeps exactly its sentinel seed entry. -/
theorem colPhase_frozen (hW : WFs st) (hdlt : dIdx < st.length) (i : Nat)
    (hi : i < st.length) (hnp : ¬ ∃ p, RPath st dIdx i p)
    (hnnb : ∀ e : Int, ((i, e) : Nat × Int) ∉ (sGet st dIdx).2) :
    colGet (colPhase st dIdx) i = [(-1, INFINITY)] := by
  have hine : i ≠ dIdx := fun h => hnp ⟨[], h⟩
  simp only [colPhase, hW.dense dIdx hdlt]
  have hseed : colGet (seedCols st dIdx) i = [(-1, INFINITY)] := by
    rw [seedCols_getD st dIdx i hi, if_neg hine]
  have hstage2 : DInv st dIdx ((sGet st dIdx).2.foldl (colDirectStep st dIdx)
      (seedCols st dIdx)) ∧
      colGet ((sGet st dIdx).2.foldl (colDirectStep st dIdx) (seedCols st dIdx)) i =
        [(-1, INFINITY)] := by
    refine foldl_inv
      (P := fun c' => DInv st dIdx c' ∧ colGet c' i = [(-1, INFINITY)]) _ _ _ ?_
      ⟨dInv_seedCols hW hdlt, hseed⟩
    intro b nr hm hb
    have hni : nr.1 ≠ i := by
      intro he
      exact hnnb nr.2 (by rw [← he]; simpa using hm)
    refine ⟨dInv_directStep hW hdlt hb.1 nr hm, ?_⟩
    unfold colDirectStep
    rw [colGet_setIdx_ne b nr.1 i _ (fun h => hni h.symm)]
    exact hb.2
  refine (foldl_inv
    (P := fun c' => ColInv st dIdx c' ∧ colGet c' i = [(-1, INFINITY)]) _ _ _ ?_
    ⟨hstage2.1.1, hstage2.2⟩).2
  intro b x _ hb
  refine ⟨colInv_sweep hW hdlt hb.1, ?_⟩
  -- one sweep cannot touch the frozen column
  refine (foldl_inv
    (P := fun c' => ColInv st dIdx c' ∧ colGet c' i = [(-1, INFINITY)]) _ _ _ ?_ hb).2
  intro b' j _ hb'
  refine ⟨colInv_relaxRouter hW hdlt hb'.1 j, ?_⟩
  unfold colRelaxRouter
  split_ifs with hskip
  · exact hb'.2
  · by_cases hji : j = i
    · subst hji
      -- relaxing the frozen router itself: every neighbor is still at INFINITY
      refine (foldl_inv
        (P := fun c' => ColInv st dIdx c' ∧ colGet c' j = [(-1, INFINITY)]) _ _ _ ?_ hb').2
      intro b'' nb hnbm hb''
      have hj : j < st.length := hi
      have hn1 : nb.1 < st.length := hW.nbrLt j hj nb hnbm
      refine ⟨colInv_relaxEdge hW hb''.1 j hj
        (fun h => hskip (h ▸ hW.dense j hj)) nb hnbm, ?_⟩
      by_cases hninf : (lastEntry (colGet b'' nb.1)).2 = INFINITY
      · simp only [colRelaxEdge]
        rw [if_pos hninf]
        exact hb''.2
      · exfalso
        have hnne := hb''.1.ne nb.1 hn1
        have hnub : (lastEntry (colGet b'' nb.1)).2 ≤ INFINITY :=
          hb''.1.ub nb.1 hn1 _ (lastEntry_mem _ hnne)
        have hnfin : (lastEntry (colGet b'' nb.1)).2 < INFINITY :=
          lt_of_le_of_ne hnub hninf
        obtain ⟨p, hp, hnd, _⟩ :=
          hb''.1.lb nb.1 hn1 _ (lastEntry_mem _ hnne) hnfin
        obtain ⟨q, hq, _, _⟩ :=
          rpath_extend hW dIdx j nb hj hnbm p hp hnd _ (le_refl (pathSum p))
        exact hnp ⟨q, hq⟩
    · -- relaxing another router leaves this column untouched
      refine (foldl_inv
        (P := fun c' => ColInv st dIdx c' ∧ colGet c' i = [(-1, INFINITY)]) _ _ _ ?_ hb').2
      intro b'' nb hnbm hb''
      constructor
      · by_cases hjlt : j < st.length
        · exact colInv_relaxEdge hW hb''.1 j hjlt
            (fun h => hskip (h ▸ hW.dense j hjlt)) nb hnbm
        · exact absurd hnbm (by rw [sGet_oob st j (by omega)]; exact List.not_mem_nil nb)
      · rw [colRelaxEdge_other b'' j nb i (fun h => hji h.symm)]
        exact hb''.2

/-- The triangle inequality at the final column: a router's incumbent cost
is at most any one of its listed edges plus that neighbor's incumbent
cost. -/
theorem colPhase_triangle (hW : WFs st) (hdlt : dIdx < st.length) (i : Nat)
    (hi : i < st.length) (nb : Nat × Int) (hnb : nb ∈ (sGet st i).2) :
    lastCost (colGet (colPhase st dIdx) i) ≤
      nb.2 + lastCost (colGet (colPhase st dIdx) nb.1) := by
  have hinv : ColInv st dIdx (colPhase st dIdx) := colPhase_colInv hW hdlt
  have hn1 : nb.1 < st.length := hW.nbrLt i hi nb hnb
  have he : 0 < nb.2 := hW.costPos i hi nb hnb
  have hAub : lastCost (colGet (colPhase st dIdx) i) ≤ INFINITY :=
    hinv.ub i hi _ (lastEntry_mem _ (hinv.ne i hi))
  have hBub : lastCost (colGet (colPhase st dIdx) nb.1) ≤ INFINITY :=
    hinv.ub nb.1 hn1 _ (lastEntry_mem _ (hinv.ne nb.1 hn1))
  have hAl : (lastEntry (colGet (colPhase st dIdx) i)).2 =
      lastCost (colGet (colPhase st dIdx) i) := rfl
  have hBl : (lastEntry (colGet (colPhase st dIdx) nb.1)).2 =
      lastCost (colGet (colPhase st dIdx) nb.1) := rfl
  by_cases hB : lastCost (colGet (colPhase st dIdx) nb.1) < INFINITY
  · obtain ⟨p, hp, hnd, hsum⟩ :=
      hinv.lb nb.1 hn1 _ (lastEntry_mem _ (hinv.ne nb.1 hn1)) hB
    obtain ⟨q, hq, hqnd, hqsum⟩ := rpath_extend hW dIdx i nb hi hnb p hp hnd _ hsum
    by_cases hqfin : pathSum q < INFINITY
    · exact le_trans (colPhase_ub hW hdlt i hi q hq hqnd hqfin) hqsum
    · omega
  · omega

/-! ### Bridging helpers for the claim statements -/

theorem hids_of_WFs {rs : List Router} (hW : WFs (structOf rs)) :
    ∀ i, i < rs.length → (rs.getD i default).id = i := by
  intro i hi
  have h := hW.dense i (by rw [structOf_length]; exact hi)
  rwa [structOf_getD] at h

theorem setup_ok_elim {rs rs' : List Router}
    (h : setup_routing_tables rs = .ok rs') : rs' = setupLoop rs := by
  unfold setup_routing_tables at h
  split_ifs at h
  exact (Except.ok.inj h).symm

theorem setup_tblGet (rs : List Router) (hW : WFs (structOf rs)) (d : Nat)
    (hd : d < rs.length) (i : Nat) :
    tblGet ((setupLoop rs).getD i default) d = colGet (colPhase (structOf rs) d) i :=
  setupLoop_tblGet rs (hids_of_WFs hW) d hd i

theorem st_lt_of_lt {rs : List Router} {d : Nat} (hd : d < rs.length) :
    d < (structOf rs).length := by
  rw [structOf_length]; exact hd

/-! ### The report loop's sort -/

theorem dictGet_mapVal (m : List (Nat × α)) (f : α → β) (k : Nat) :
    dictGet (m.map (fun kv => (kv.1, f kv.2))) k = (dictGet m k).map f := by
  induction m with
  | nil => rfl
  | cons kv rest ih =>
    by_cases h : kv.1 = k
    · simp [dictGet, h]
    · simp [dictGet, h, ih]

theorem reportSort_tblGet (rs' : List Router) (i k : Nat) :
    tblGet ((reportSort rs').getD i default) k =
      (tblGet (rs'.getD i default) k).insertionSort (fun a b => a.2 ≤ b.2) := by
  by_cases hi : i < rs'.length
  · have hmap : (reportSort rs').getD i default =
        { rs'.getD i default with
          routing_table := (rs'.getD i default).routing_table.map
            (fun kv => (kv.1, kv.2.insertionSort (fun a b => a.2 ≤ b.2))) } := by
      unfold reportSort
      rw [List.getD_eq_getElem _ _ (by simpa using hi), List.getElem_map,
        List.getD_eq_getElem _ _ hi]
    rw [hmap]
    unfold tblGet
    simp only
    rw [dictGet_mapVal]
    cases dictGet (rs'.getD i default).routing_table k <;> rfl
  · rw [getD_oob rs' i default (by omega),
      getD_oob (reportSort rs') i default (by unfold reportSort; simp; omega)]
    rfl

theorem headD_mem (l : List α) (d : α) (h : l ≠ []) : l.headD d ∈ l := by
  cases l with
  | nil => exact absurd rfl h
  | cons a t => exact List.mem_cons_self a t

theorem sorted_headD_min (l : List (Int × Int))
    (hs : l.Sorted (fun a b => a.2 ≤ b.2)) :
    ∀ x ∈ l, (l.headD (0, 0)).2 ≤ x.2 := by
  cases l with
  | nil => intro x hx; exact absurd hx (List.not_mem_nil x)
  | cons a t =>
    intro x hx
    rcases List.mem_cons.mp hx with h | h
    · rw [h]
      exact le_refl _
    · exact (List.pairwise_cons.mp hs).1 x h

theorem sorted_head_eq_min (l : List (Int × Int)) (hne : l ≠ [])
    (hdesc : l.Chain' (fun a b => b.2 ≤ a.2)) :
    ((l.insertionSort (fun a b => a.2 ≤ b.2)).headD (0, 0)).2 = lastCost l := by
  have hperm := List.perm_insertionSort (fun a b => a.2 ≤ b.2) l
  have hsorted := List.sorted_insertionSort (fun a b => a.2 ≤ b.2) l
  have hne' : l.insertionSort (fun a b => a.2 ≤ b.2) ≠ [] := by
    intro h
    rw [h] at hperm
    exact hne hperm.symm.eq_nil
  apply le_antisymm
  · exact sorted_headD_min _ hsorted _ (hperm.mem_iff.mpr (lastEntry_mem l hne))
  · exact last_min_of_desc l hdesc hne _ (hperm.mem_iff.mp (headD_mem _ _ hne'))

/-! ### Concrete facts about the seed topology -/

theorem routers_WFs : WFs (structOf routers) :=
  ⟨by decide, by decide, by decide, by decide, by decide⟩

/-- On the hand-written cyclic tables, the route walk alternates between
routers 0 and 1 forever: it exhausts any amount of fuel. -/
theorem cyc_walk_aux : ∀ (f : Nat) (p : List Int),
    routeWalk cycRouters 2 f 0 p = .error .outOfFuel ∧
    routeWalk cycRouters 2 f 1 p = .error .outOfFuel := by
  intro f
  induction f with
  | zero => intro p; exact ⟨rfl, rfl⟩
  | succ n ih =>
    intro p
    refine ⟨?_, ?_⟩
    · have hstep : routeWalk cycRouters 2 (n + 1) 0 p =
          routeWalk cycRouters 2 n 1 (p ++ [0]) := rfl
      rw [hstep]
      exact (ih (p ++ [0])).2
    · have hstep : routeWalk cycRouters 2 (n + 1) 1 p =
          routeWalk cycRouters 2 n 0 (p ++ [1]) := rfl
      rw [hstep]
      exact (ih (p ++ [1])).1

/-! ### The claims -/

/-- C1, counterexample: immediately after `setup_routing_tables`, router 0's
list for destination 5 on the seed topology is `[(-1, 10^10), (1, 5), (1, 4)]`,
which is not sorted ascending by cost and whose first element is the
sentinel seed, not the best next hop. -/
theorem c1_counterexample :
    tblGet ((setupLoop routers).getD 0 default) 5 = [(-1, INFINITY), (1, 5), (1, 4)] ∧
    ¬ (tblGet ((setupLoop routers).getD 0 default) 5).Chain' (fun a b => a.2 ≤ b.2) := by
  have he : tblGet ((setupLoop routers).getD 0 default) 5 =
      [(-1, INFINITY), (1, 5), (1, 4)] := by decide
  refine ⟨he, ?_⟩
  intro h
  rw [he] at h
  have h1 := (List.chain'_cons.mp h).1
  norm_num [INFINITY] at h1

/-- C1 (amended): after `setup_routing_tables` completes, every table list
is ordered by cost nonincreasing and its last element attains the minimum
cost (the engine's incumbent best); ascending order, with the first element
attaining the minimum, holds only after the report loop's in-place
`hops.sort` (modelled by `reportSort`), whose head cost then equals the
engine's best cost. -/
theorem c1_amended_sorted (rs rs' : List Router) (hW : WFs (structOf rs))
    (hok : setup_routing_tables rs = .ok rs') (i d : Nat) (hi : i < rs.length)
    (hd : d < rs.length) :
    (tblGet (rs'.getD i default) d).Chain' (fun a b => b.2 ≤ a.2) ∧
    (∀ x ∈ tblGet (rs'.getD i default) d,
      lastCost (tblGet (rs'.getD i default) d) ≤ x.2) ∧
    (tblGet ((reportSort rs').getD i default) d).Sorted (fun a b => a.2 ≤ b.2) ∧
    (∀ x ∈ tblGet ((reportSort rs').getD i default) d,
      ((tblGet ((reportSort rs').getD i default) d).headD (0, 0)).2 ≤ x.2) ∧
    ((tblGet ((reportSort rs').getD i default) d).headD (0, 0)).2 =
      lastCost (tblGet (rs'.getD i default) d) := by
  obtain rfl := setup_ok_elim hok
  have hst : d < (structOf rs).length := st_lt_of_lt hd
  have hsi : i < (structOf rs).length := st_lt_of_lt hi
  have hinv := colPhase_colInv hW hst
  have hdesc := hinv.desc i hsi
  have hne := hinv.ne i hsi
  rw [reportSort_tblGet, setup_tblGet rs hW d hd i]
  refine ⟨hdesc, last_min_of_desc _ hdesc hne, List.sorted_insertionSort _ _, ?_,
    sorted_head_eq_min _ hne hdesc⟩
  intro x hx
  exact sorted_headD_min _ (List.sorted_insertionSort _ _) x hx

/-- C1, witness: the amended statement evaluated on the seed topology at
router 0, destination 5. -/
theorem c1_amended_witness :
    (tblGet ((setupLoop routers).getD 0 default) 5).Chain' (fun a b => b.2 ≤ a.2) ∧
    ((tblGet ((reportSort (setupLoop routers)).getD 0 default) 5).headD (0, 0)).2 =
      lastCost (tblGet ((setupLoop routers).getD 0 default) 5) :=
  ⟨(c1_amended_sorted routers (setupLoop routers) routers_WFs rfl 0 5
      (by decide) (by decide)).1,
   (c1_amended_sorted routers (setupLoop routers) routers_WFs rfl 0 5
      (by decide) (by decide)).2.2.2.2⟩

/-- C2: `find_best_route` has no walk bound and raises no errors.  On a
disconnected two-router topology it follows the sentinel `-1` through
Python's negative indexing into the last router and returns the garbage
path `[0, -1, 1]` instead of an unreachable-destination failure; on
inconsistent (cyclic) tables it never terminates — it exhausts every
fuel bound instead of failing with a cycle error. -/
theorem c2_no_guard :
    find_best_route 10 (setupLoop discRouters) ((setupLoop discRouters).getD 0 default)
        ((setupLoop discRouters).getD 1 default) = .ok [0, -1, 1] ∧
    ∀ fuel : Nat, find_best_route fuel cycRouters (cycRouters.getD 0 default)
        (cycRouters.getD 2 default) = .error .outOfFuel := by
  refine ⟨rfl, ?_⟩
  intro fuel
  have hstep : find_best_route fuel cycRouters (cycRouters.getD 0 default)
      (cycRouters.getD 2 default) = routeWalk cycRouters 2 fuel 1 [(0 : Int)] := rfl
  rw [hstep]
  exact (cyc_walk_aux fuel [(0 : Int)]).2

/-- C2, witness: the non-termination conjunct instantiated at fuel 5. -/
theorem c2_no_guard_witness :
    find_best_route 5 cycRouters (cycRouters.getD 0 default)
      (cycRouters.getD 2 default) = .error .outOfFuel :=
  c2_no_guard.2 5

/-- C3: a destination record that is not a member of the router list does
not make `find_best_route` fail — the membership check only prints — and a
complete path is returned anyway. -/
theorem c3_no_return :
    ghostRouter ∉ reportSort (setupLoop routers) ∧
    find_best_route 10 (reportSort (setupLoop routers))
        ((reportSort (setupLoop routers)).getD 0 default) ghostRouter
      = .ok [0, 1, 4, 3, 5] :=
  ⟨by decide, rfl⟩

/-- C4: on an empty router list, `setup_routing_tables` reports the
empty-topology condition (the source prints its diagnostic and returns
without touching any state). -/
theorem c4_empty_topology :
    setup_routing_tables ([] : List Router) = .error .EmptyTopologyError := rfl

/-- C5: under the data-model invariants (dense ids, in-range neighbor
references, positive edge costs below `INFINITY`, no self loops), if every
(router, destination) pair is joined by a simple listing path whose cost sum
stays below `INFINITY` (the spec requires `INFINITY` to exceed any
achievable path sum), then after `setup_routing_tables` every router holds a
finite-cost entry for every destination; and a router with no listing path
to a destination, and not listed among that destination's neighbors,
retains exactly the seed entry `(SENTINEL, INFINITY) = (-1, 10^10)`. -/
theorem c5_reachability (rs rs' : List Router) (hW : WFs (structOf rs))
    (hok : setup_routing_tables rs = .ok rs') :
    ((∀ i d, i < rs.length → d < rs.length →
        ∃ p, SimplePath (structOf rs) d i p ∧ pathSum p < INFINITY) →
      ∀ i d, i < rs.length → d < rs.length →
        lastCost (tblGet (rs'.getD i default) d) < INFINITY) ∧
    (∀ i d, i < rs.length → d < rs.length →
      (¬ ∃ p, RPath (structOf rs) d i p) →
      (∀ e : Int, ((i, e) : Nat × Int) ∉ (sGet (structOf rs) d).2) →
      tblGet (rs'.getD i default) d = [(-1, INFINITY)]) := by
  obtain rfl := setup_ok_elim hok
  constructor
  · intro hconn i d hi hd
    obtain ⟨p, ⟨hp, hnd⟩, hsum⟩ := hconn i d hi hd
    rw [setup_tblGet rs hW d hd i]
    exact lt_of_le_of_lt
      (colPhase_ub hW (st_lt_of_lt hd) i (st_lt_of_lt hi) p hp hnd hsum) hsum
  · intro i d hi hd hnp hnnb
    rw [setup_tblGet rs hW d hd i]
    exact colPhase_frozen hW (st_lt_of_lt hd) i (st_lt_of_lt hi) hnp hnnb

/-- C5, witness: the connected conjunct on the one-router topology, and the
disconnected conjunct on two isolated routers. -/
theorem c5_witness :
    lastCost (tblGet ((setupLoop oneRouter).getD 0 default) 0) < INFINITY ∧
    tblGet ((setupLoop discRouters).getD 0 default) 1 = [(-1, INFINITY)] := by
  constructor
  · refine (c5_reachability oneRouter (setupLoop oneRouter)
      ⟨by decide, by decide, by decide, by decide, by decide⟩ rfl).1 ?_ 0 0
        (by decide) (by decide)
    intro i d hi hd
    have hl : oneRouter.length = 1 := rfl
    rw [hl] at hi hd
    have hi0 : i = 0 := by omega
    have hd0 : d = 0 := by omega
    subst hi0
    subst hd0
    exact ⟨[], by decide, by decide⟩
  · refine (c5_reachability discRouters (setupLoop discRouters)
      ⟨by decide, by decide, by decide, by decide, by decide⟩ rfl).2 0 1
        (by decide) (by decide) ?_ ?_
    · rintro ⟨p, hp⟩
      cases p with
      | nil => exact absurd hp (by decide)
      | cons nb rest =>
        obtain ⟨h1, _⟩ := hp
        have h0 : (sGet (structOf discRouters) 0).2 = [] := rfl
        rw [h0] at h1
        exact List.not_mem_nil nb h1
    · intro e h
      have h0 : (sGet (structOf discRouters) 1).2 = [] := rfl
      rw [h0] at h
      exact List.not_mem_nil _ h

/-- C6, counterexample: called directly after `setup_routing_tables` (before
the report loop's sort, which is what "after setup_routing_tables" literally
denotes), `find_best_route` on the seed topology returns `[0, -1, 5]` — its
first hop is read from the unsorted list's first element, the sentinel — and
that list of ids has no accumulated edge cost at all (`0 → -1` is not an
edge), so its cost cannot equal the recorded best cost. -/
theorem c6_counterexample :
    find_best_route 10 (setupLoop routers) ((setupLoop routers).getD 0 default)
        ((setupLoop routers).getD 5 default) = .ok [0, -1, 5] ∧
    routeCost (structOf routers) [0, -1, 5] = none :=
  ⟨rfl, rfl⟩

/-- C6 (amended): in the program's actual order — `setup_routing_tables`
followed by the report loop's per-list ascending sort — `find_best_route`
from router 0 to router 5 on the seed topology returns `[0, 1, 4, 3, 5]`,
whose accumulated edge cost 4 equals the best cost recorded in router 0's
table for destination 5 (both before sorting, as the last element, and
after, as the head), and 4 is minimal over all simple listing paths from 0
to 5. -/
theorem c6_amended_run :
    find_best_route 10 (reportSort (setupLoop routers))
        ((reportSort (setupLoop routers)).getD 0 default)
        ((reportSort (setupLoop routers)).getD 5 default) = .ok [0, 1, 4, 3, 5] ∧
    routeCost (structOf routers) [0, 1, 4, 3, 5] = some 4 ∧
    lastCost (tblGet ((setupLoop routers).getD 0 default) 5) = 4 ∧
    ((tblGet ((reportSort (setupLoop routers)).getD 0 default) 5).headD (0, 0)).2 = 4 ∧
    ∀ p, SimplePath (structOf routers) 5 0 p → 4 ≤ pathSum p := by
  refine ⟨rfl, rfl, by decide, by decide, ?_⟩
  intro p hsp
  obtain ⟨hp, hnd⟩ := hsp
  have hdlt : (5 : Nat) < (structOf routers).length := by decide
  have hilt : (0 : Nat) < (structOf routers).length := by decide
  by_cases hfin : pathSum p < INFINITY
  · have h := colPhase_ub routers_WFs hdlt 0 hilt p hp hnd hfin
    have he : lastCost (colGet (colPhase (structOf routers) 5) 0) = 4 := by decide
    omega
  · have h4 : (4 : Int) < INFINITY := by norm_num [INFINITY]
    omega

/-- C6, witness: the seed topology's path `0-1-4-3-5` is a simple listing
path of cost 4, matching the amended minimality bound. -/
theorem c6_witness :
    SimplePath (structOf routers) 5 0 [(1, 1), (4, 1), (3, 1), (5, 1)] ∧
    4 ≤ pathSum [(1, 1), (4, 1), (3, 1), (5, 1)] :=
  ⟨by decide, c6_amended_run.2.2.2.2 _ (by decide)⟩

/-- C7: after `setup_routing_tables`, every router's table entry for its own
id is exactly the self entry `[(own_id, 0)]` — no relaxation pass of any
destination ever touches it, so its best entry is `(r.id, 0)`. -/
theorem c7_self_route (rs rs' : List Router) (hW : WFs (structOf rs))
    (hok : setup_routing_tables rs = .ok rs') (i : Nat) (hi : i < rs.length) :
    tblGet (rs'.getD i default) i = [((i : Int), 0)] := by
  obtain rfl := setup_ok_elim hok
  rw [setup_tblGet rs hW i hi i]
  exact colPhase_self hW (st_lt_of_lt hi)

/-- C7, witness: router 0's self entry on the seed topology. -/
theorem c7_self_route_witness :
    tblGet ((setupLoop routers).getD 0 default) 0 = [((0 : Int), 0)] :=
  c7_self_route routers (setupLoop routers) routers_WFs rfl 0 (by decide)

/-- C8: after `setup_routing_tables`, for every router `i`, destination `d`
and neighbor `(n, e)` listed by `i`, the best (incumbent, minimum) cost of
`i` toward `d` is at most `e` plus the best cost of `n` toward `d`. -/
theorem c8_triangle (rs rs' : List Router) (hW : WFs (structOf rs))
    (hok : setup_routing_tables rs = .ok rs') (i d : Nat) (hi : i < rs.length)
    (hd : d < rs.length) (nb : Nat × Int)
    (hnb : nb ∈ (rs.getD i default).nieghbors) :
    lastCost (tblGet (rs'.getD i default) d) ≤
      nb.2 + lastCost (tblGet (rs'.getD nb.1 default) d) := by
  obtain rfl := setup_ok_elim hok
  have hnb' : nb ∈ (sGet (structOf rs) i).2 := by
    rw [structOf_getD]
    exact hnb
  rw [setup_tblGet rs hW d hd i, setup_tblGet rs hW d hd nb.1]
  exact colPhase_triangle hW (st_lt_of_lt hd) i (st_lt_of_lt hi) nb hnb'

/-- C8, witness: on the seed topology, router 0's best cost to 5 (which is
4) is at most the edge `0-1` of cost 1 plus router 1's best cost to 5
(which is 3). -/
theorem c8_triangle_witness :
    lastCost (tblGet ((setupLoop routers).getD 0 default) 5) ≤
      1 + lastCost (tblGet ((setupLoop routers).getD 1 default) 5) :=
  c8_triangle routers (setupLoop routers) routers_WFs rfl 0 5 (by decide) (by decide)
    (1, 1) (by decide)

/-- C9: recomputing the routing tables on an unchanged topology is
idempotent — the second run reproduces every destination's list identically
for every router, hence in particular the same best-hop choice and the same
minimum cost for every (router, destination) pair. -/
theorem c9_idempotent (rs rs1 rs2 : List Router) (hW : WFs (structOf rs))
    (h1 : setup_routing_tables rs = .ok rs1) (h2 : setup_routing_tables rs1 = .ok rs2)
    (i d : Nat) (hd : d < rs.length) :
    tblGet (rs2.getD i default) d = tblGet (rs1.getD i default) d := by
  obtain rfl := setup_ok_elim h1
  obtain rfl := setup_ok_elim h2
  have hso : structOf (setupLoop rs) = structOf rs := structOf_setupLoop rs
  have hW1 : WFs (structOf (setupLoop rs)) := by rw [hso]; exact hW
  have hlen1 : (setupLoop rs).length = rs.length := length_of_structOf hso
  rw [setup_tblGet (setupLoop rs) hW1 d (by omega) i, setup_tblGet rs hW d hd i, hso]

/-- C9, witness: router 0's list for destination 5 is unchanged by a second
run on the seed topology. -/
theorem c9_idempotent_witness :
    tblGet ((setupLoop (setupLoop routers)).getD 0 default) 5 =
      tblGet ((setupLoop routers).getD 0 default) 5 :=
  c9_idempotent routers (setupLoop routers) (setupLoop (setupLoop routers))
    routers_WFs rfl rfl 0 5 (by decide)

/-- C10: immediately after `setup_routing_tables` (before any external
sorting), the last element of every table list attains the minimum cost
among all entries of that list: relaxation appends only strictly improving
candidates, so the engine's incumbent best is the last element. -/
theorem c10_last_is_min (rs rs' : List Router) (hW : WFs (structOf rs))
    (hok : setup_routing_tables rs = .ok rs') (i d : Nat) (hi : i < rs.length)
    (hd : d < rs.length) (x : Int × Int) (hx : x ∈ tblGet (rs'.getD i default) d) :
    lastCost (tblGet (rs'.getD i default) d) ≤ x.2 := by
  obtain rfl := setup_ok_elim hok
  rw [setup_tblGet rs hW d hd i] at hx ⊢
  have hinv := colPhase_colInv hW (st_lt_of_lt hd)
  exact last_min_of_desc _ (hinv.desc i (st_lt_of_lt hi))
    (hinv.ne i (st_lt_of_lt hi)) x hx

/-- C10, witness: on the seed topology the fallback entry `(1, 5)` of router
0's list for destination 5 costs no less than the incumbent last element. -/
theorem c10_last_is_min_witness :
    lastCost (tblGet ((setupLoop routers).getD 0 default) 5) ≤ (5 : Int) :=
  c10_last_is_min routers (setupLoop routers) routers_WFs rfl 0 5 (by decide)
    (by decide) (1, 5) (by decide)
